import Mathlib

/-!
Verification development for the security utilities module
(`src/utils/security.py`) of the fastapi-boilerplate repository.

The module is embedded shallowly:

* Strings are Lean `String`s (lists of characters); byte sequences are
  `List Nat` with every element `< 256`.
* URL-safe base64 (RFC 4648 §5, as used by `base64.urlsafe_b64encode` /
  `base64.urlsafe_b64decode` on canonical input) is implemented concretely.
* The cryptographic primitives that live outside the repository
  (`hashlib.pbkdf2_hmac`, `hashlib.sha256`, `cryptography.fernet.Fernet`,
  `os.urandom`) are modelled from the specification as ideal, deterministic,
  collision-free primitives; each such definition carries a doc comment
  starting with "Modelled from the spec:".
* Randomness (`os.urandom`, Fernet nonce/timestamp) is passed in explicitly
  as parameters, so every operation is a pure function of its inputs.
* Python exceptions are values of `PyError`, and fallible operations return
  `Except PyError α`.
-/

/-- Python exception outcomes that the security utilities can produce.
`valueError` and `typeError` carry the exception message; `invalidToken`
stands for `cryptography.fernet.InvalidToken` (the integrity/authentication
error); `attributeError` stands for the `AttributeError` raised by
`getattr(hashlib, algorithm)` on an unknown digest name. -/
inductive PyError where
  | valueError (msg : String)
  | typeError (msg : String)
  | attributeError (msg : String)
  | invalidToken
  deriving DecidableEq, Repr

deriving instance DecidableEq for Except

/-- A byte sequence: every element is an actual byte value. -/
def validBytes (l : List Nat) : Prop := ∀ b ∈ l, b < 256

instance : DecidablePred validBytes := fun l => List.decidableBAll _ l

/-- ASCII-only check on a character list, as used by `hmac.compare_digest`
on `str` arguments. -/
def asciiChars (l : List Char) : Prop := ∀ c ∈ l, c.toNat < 128

instance : DecidablePred asciiChars := fun l => List.decidableBAll _ l

/-- Character of the URL-safe base64 alphabet at index `i`
(`A-Z`, `a-z`, `0-9`, `-`, `_`). -/
def b64Char (i : Nat) : Char :=
  if i < 26 then Char.ofNat (65 + i)
  else if i < 52 then Char.ofNat (97 + (i - 26))
  else if i < 62 then Char.ofNat (48 + (i - 52))
  else if i = 62 then Char.ofNat 45
  else Char.ofNat 95

/-- Index of a character in the URL-safe base64 alphabet, `none` for
characters outside the alphabet (including the padding character). -/
def b64Idx (c : Char) : Option Nat :=
  if 65 ≤ c.toNat ∧ c.toNat ≤ 90 then some (c.toNat - 65)
  else if 97 ≤ c.toNat ∧ c.toNat ≤ 122 then some (26 + (c.toNat - 97))
  else if 48 ≤ c.toNat ∧ c.toNat ≤ 57 then some (52 + (c.toNat - 48))
  else if c.toNat = 45 then some 62
  else if c.toNat = 95 then some 63
  else none

/-- URL-safe base64 encoding of a byte sequence, with `=` padding,
as produced by `base64.urlsafe_b64encode`. -/
def b64encode : List Nat → List Char
  | [] => []
  | [b1] => [b64Char (b1 / 4), b64Char (b1 % 4 * 16), '=', '=']
  | [b1, b2] => [b64Char (b1 / 4), b64Char (b1 % 4 * 16 + b2 / 16), b64Char (b2 % 16 * 4), '=']
  | b1 :: b2 :: b3 :: rest =>
      b64Char (b1 / 4) :: b64Char (b1 % 4 * 16 + b2 / 16) ::
      b64Char (b2 % 16 * 4 + b3 / 64) :: b64Char (b3 % 64) :: b64encode rest

/-- Decoding of one full (non-final) base64 chunk of four alphabet
characters into three bytes. -/
def decodeFull (a b c d : Char) : Option (List Nat) :=
  match b64Idx a, b64Idx b, b64Idx c, b64Idx d with
  | some i1, some i2, some i3, some i4 =>
      some [i1 * 4 + i2 / 16, i2 % 16 * 16 + i3 / 4, i3 % 4 * 64 + i4]
  | _, _, _, _ => none

/-- Decoding of the final base64 chunk, honouring `=` padding and
requiring canonical (zero) trailing bits. -/
def decodeLast (a b c d : Char) : Option (List Nat) :=
  match b64Idx a, b64Idx b with
  | some i1, some i2 =>
    if c = '=' then
      if d = '=' ∧ i2 % 16 = 0 then some [i1 * 4 + i2 / 16] else none
    else
      match b64Idx c with
      | some i3 =>
        if d = '=' then
          if i3 % 4 = 0 then some [i1 * 4 + i2 / 16, i2 % 16 * 16 + i3 / 4] else none
        else
          match b64Idx d with
          | some i4 => some [i1 * 4 + i2 / 16, i2 % 16 * 16 + i3 / 4, i3 % 4 * 64 + i4]
          | none => none
      | none => none
  | _, _ => none

/-- URL-safe base64 decoding of a character list into bytes
(canonical form: correct length, padding only at the end, zero padding
bits), `none` on malformed input. On the canonical outputs of
`b64encode` it agrees with `base64.urlsafe_b64decode`. -/
def b64decode : List Char → Option (List Nat)
  | [] => some []
  | c1 :: c2 :: c3 :: c4 :: rest =>
      if rest.isEmpty then decodeLast c1 c2 c3 c4
      else
        match decodeFull c1 c2 c3 c4, b64decode rest with
        | some y, some t => some (y ++ t)
        | _, _ => none
  | _ => none

/-- Little-endian base-`base` digits, computed by structural recursion on
a fuel argument so that it reduces definitionally (it agrees with
`Nat.digits base` for `base ≥ 2` whenever `n ≤ fuel`). -/
def digitsRec (base : Nat) : Nat → Nat → List Nat
  | _, 0 => []
  | 0, _ + 1 => []
  | fuel + 1, n + 1 => (n + 1) % base :: digitsRec base fuel ((n + 1) / base)

/-- Little-endian base-`base` digits of `n`. -/
def natDigits (base n : Nat) : List Nat := digitsRec base n n

/-- Self-delimiting byte encoding of a natural number: its base-255
digits (each `< 255`) followed by the terminator byte `255`. Used by the
ideal primitives below to build injective byte encodings. -/
def natBytes (n : Nat) : List Nat := natDigits 255 n ++ [255]

/-- Length-prefixed byte encoding of a byte sequence. -/
def lenEnc (l : List Nat) : List Nat := natBytes l.length ++ l

/-- Reads one `natBytes` value off the front of a byte sequence,
returning the value and the remaining bytes. -/
def readNat (l : List Nat) : Option (Nat × List Nat) :=
  match l.dropWhile (fun b => b != 255) with
  | 255 :: r => some (Nat.ofDigits 255 (l.takeWhile (fun b => b != 255)), r)
  | _ => none

/-- Byte encoding of a character list. Stands for Python's
`str.encode("utf-8")`: like UTF-8 it is deterministic and injective; each
character is encoded as `natBytes` of its code point. -/
def bytesOfChars : List Char → List Nat
  | [] => []
  | c :: t => natBytes c.toNat ++ bytesOfChars t

/-- Inverse of `bytesOfChars` (Python's `bytes.decode("utf-8")`):
reads characters until the input is exhausted, failing on bytes that do
not encode a valid code point. The fuel argument bounds recursion depth;
`l.length` is always sufficient fuel. -/
def charsOfBytes : Nat → List Nat → Option (List Char)
  | _, [] => some []
  | 0, _ :: _ => none
  | fuel + 1, b :: t =>
    match readNat (b :: t) with
    | some (n, r) =>
        if n.isValidChar then (charsOfBytes fuel r).map (fun cs => Char.ofNat n :: cs)
        else none
    | none => none

/-- Splitting of a character list on the character `$`, exactly as
Python's `str.split("$")`: always returns at least one (possibly empty)
field, one more field per occurrence of `$`. -/
def splitD : List Char → List (List Char)
  | [] => [[]]
  | c :: t =>
    if c = '$' then [] :: splitD t
    else
      match splitD t with
      | [] => [[c]]
      | h :: r => (c :: h) :: r

/-- Value of a decimal digit character, `none` for non-digits. -/
def digitVal (c : Char) : Option Nat :=
  if 48 ≤ c.toNat ∧ c.toNat ≤ 57 then some (c.toNat - 48) else none

/-- Accumulating most-significant-first decimal parse. -/
def digitsValAux : Nat → List Char → Option Nat
  | acc, [] => some acc
  | acc, c :: t =>
    match digitVal c with
    | some d => digitsValAux (acc * 10 + d) t
    | none => none

/-- Parse of a non-empty all-digit character list. -/
def digitsVal : List Char → Option Nat
  | [] => none
  | l => digitsValAux 0 l

/-- Parse of a Python integer literal as accepted by `int(str)`:
an optional sign followed by decimal digits (leading zeros allowed).
Python additionally strips surrounding whitespace and allows single
underscores between digits; no claim depends on those forms and they are
omitted. -/
def pyInt (s : String) : Option Int :=
  match s.data with
  | '+' :: t => (digitsVal t).map (fun n => (n : Int))
  | '-' :: t => (digitsVal t).map (fun n => -(n : Int))
  | t => (digitsVal t).map (fun n => (n : Int))

/-- Decimal digit character. -/
def digitChar (d : Nat) : Char := Char.ofNat (48 + d)

/-- Decimal rendering of a natural number, as Python's `str(int)`. -/
def natRepr (n : Nat) : String :=
  if n = 0 then "0" else String.mk ((natDigits 10 n).reverse.map digitChar)

/-- Decimal rendering of an integer, as the f-string `f"{iterations}"`
in `hash_text` and `verify_hash`. -/
def intRepr (i : Int) : String :=
  if i < 0 then "-" ++ natRepr i.natAbs else natRepr i.toNat

/-- Modelled from the spec: `hashlib.pbkdf2_hmac("sha256", password, salt,
iterations)` — PBKDF2 with HMAC-SHA256, which the repository only relies on
for being a deterministic, collision-free derivation of a byte string from
`(password, salt, iterations)`. It is modelled as the ideal such function:
an injective byte encoding of the three inputs. CPython rejects iteration
counts below one with `ValueError("iteration value must be greater than
0.")`, which is modelled by the guard. -/
def pbkdf2Hmac (password salt : List Nat) (iterations : Int) : Except PyError (List Nat) :=
  if iterations < 1 then .error (.valueError "iteration value must be greater than 0.")
  else .ok (lenEnc password ++ lenEnc salt ++ natBytes iterations.toNat)

/-- Modelled from the spec: `hashlib.sha256(data).digest()`, used only as a
deterministic one-way function for symmetric key derivation; modelled as the
ideal collision-free digest, i.e. an injective byte encoding of the input
string. -/
def sha256Digest (s : String) : List Nat := bytesOfChars s.data

/-- Modelled from the spec: the ideal keyed digest behind `hmac.new(key,
message, getattr(hashlib, algorithm)).digest()` — deterministic and
injective in `(algorithm, key, message)`. -/
def hmacDigest (key msg : List Nat) (algorithm : String) : List Nat :=
  lenEnc (bytesOfChars algorithm.data) ++ lenEnc key ++ msg

/-- Modelled from the spec: the digest-algorithm names guaranteed to be
available as `hashlib` attributes. -/
def hashlibAlgorithms : List String := ["md5", "sha1", "sha224", "sha256", "sha384", "sha512"]

/-- Constant-time string comparison `hmac.compare_digest(a, b)` on `str`
arguments: raises `TypeError` unless both strings are ASCII-only, and
otherwise returns their equality (constant-timeness does not affect the
boolean result). -/
def compare_digest (a b : String) : Except PyError Bool :=
  if asciiChars a.data ∧ asciiChars b.data then .ok (a == b)
  else .error (.typeError "comparing strings with non-ASCII characters is not supported")

/-- `generate_salt(length)`: rejects non-positive lengths, otherwise
URL-safe-base64-encodes `length` bytes from `os.urandom`. The entropy read
is passed in explicitly as `randomBytes` (the theorems assume
`randomBytes.length = length.toNat`). -/
def generate_salt (randomBytes : List Nat) (length : Int) : Except PyError String :=
  if length ≤ 0 then .error (.valueError "Salt length must be positive")
  else .ok (String.mk (b64encode randomBytes))

/-- `hash_text(text, salt=salt, iterations=iterations)`. `freshSalt` is the
value `generate_salt()` returns at this call, passed in explicitly; the
Python expression `salt or generate_salt()` makes the code fall back to it
both when `salt` is omitted (`none`) and when it is the empty string. -/
def hash_text (freshSalt : String) (text : String) (salt : Option String)
    (iterations : Int) : Except PyError String :=
  if text = "" then .error (.valueError "Text to hash must not be empty")
  else
    match salt with
    | some s =>
      match pbkdf2Hmac (bytesOfChars text.data)
          (bytesOfChars (if s = "" then freshSalt else s).data) iterations with
      | .error e => .error e
      | .ok dk =>
          .ok ((if s = "" then freshSalt else s) ++ "$" ++ intRepr iterations ++ "$" ++
               String.mk (b64encode dk))
    | none =>
      match pbkdf2Hmac (bytesOfChars text.data) (bytesOfChars freshSalt.data) iterations with
      | .error e => .error e
      | .ok dk =>
          .ok (freshSalt ++ "$" ++ intRepr iterations ++ "$" ++ String.mk (b64encode dk))

/-- The salt actually used by `hash_text`: the Python expression
`salt or generate_salt()` — the caller salt unless it is `None` or empty,
in which case the freshly generated salt. -/
def resolveSalt (freshSalt : String) (salt : Option String) : String :=
  match salt with
  | some s => if s = "" then freshSalt else s
  | none => freshSalt

/-- The message of the format `ValueError` raised by `verify_hash`. -/
def formatErrMsg : String := "Stored hash has invalid format. Expected salt$iterations$hash."

/-- `verify_hash(text, stored_hash)`: splits `stored_hash` on `$` into
exactly three fields, parses the middle one as an integer (any failure is
the format `ValueError`), recomputes `hash_text(text, salt=salt,
iterations=iterations)` and compares it with
`f"{salt}${iterations}${hashed}"` via `hmac.compare_digest`. `freshSalt`
is threaded through to the inner `hash_text` call (it is used only when
the parsed salt field is empty). -/
def verify_hash (freshSalt : String) (text stored_hash : String) : Except PyError Bool :=
  match splitD stored_hash.data with
  | [saltL, iterL, hashL] =>
    match pyInt (String.mk iterL) with
    | some iterations =>
      match hash_text freshSalt text (some (String.mk saltL)) iterations with
      | .ok calculated =>
          compare_digest calculated
            (String.mk saltL ++ "$" ++ intRepr iterations ++ "$" ++ String.mk hashL)
      | .error e => .error e
    | none => .error (.valueError formatErrMsg)
  | _ => .error (.valueError formatErrMsg)

/-- `generate_hmac(message, secret_key, algorithm=algorithm)`. -/
def generate_hmac (message secret_key : String) (algorithm : String) : Except PyError String :=
  if message = "" then .error (.valueError "Message must not be empty")
  else if secret_key = "" then .error (.valueError "Secret key must not be empty")
  else if hashlibAlgorithms.contains algorithm then
    .ok (String.mk (b64encode
      (hmacDigest (bytesOfChars secret_key.data) (bytesOfChars message.data) algorithm)))
  else .error (.attributeError algorithm)

/-- `_derive_fernet_key(secret_key)`: URL-safe base64 of the SHA-256 digest
of the secret, as a byte sequence. -/
def _derive_fernet_key (secret_key : String) : List Nat :=
  (b64encode (sha256Digest secret_key)).map Char.toNat

/-- Modelled from the spec: the byte payload a Fernet token carries — the
timestamp, the random nonce and the message, each self-delimited. -/
def fernetPayload (timestamp : Nat) (nonce msg : List Nat) : List Nat :=
  natBytes timestamp ++ lenEnc nonce ++ lenEnc msg

/-- Modelled from the spec: the raw bytes of a Fernet token produced under
`key`: the key (self-delimited) followed by three copies of the payload.
The spec requires only that the token embed the timestamp and nonce, be
deterministic given them, and be integrity-protected (any tampering
detectable); the repetition is the ideal integrity mechanism standing in
for the token's HMAC tag. -/
def fernetEncryptRaw (timestamp : Nat) (nonce key msg : List Nat) : List Nat :=
  lenEnc key ++ fernetPayload timestamp nonce msg ++ fernetPayload timestamp nonce msg ++
    fernetPayload timestamp nonce msg

/-- Parse of a Fernet payload: timestamp, nonce and message. -/
def fernetParse (body : List Nat) : Option (Nat × List Nat × List Nat) :=
  match readNat body with
  | some (ts, r1) =>
    match readNat r1 with
    | some (nlen, r2) =>
      match readNat (r2.drop nlen) with
      | some (mlen, r3) => some (ts, r2.take nlen, r3.take mlen)
      | none => none
    | none => none
  | none => none

/-- Modelled from the spec: Fernet decryption at the byte level — parse the
token, then verify its integrity under `key` by recomputing the token the
parsed fields would produce; any mismatch (tampering, wrong key, malformed
structure) fails. -/
def fernetDecryptRaw (key raw : List Nat) : Option (List Nat) :=
  match fernetParse (raw.drop (lenEnc key).length) with
  | some (ts, nonce, msg) =>
      if raw = fernetEncryptRaw ts nonce key msg then some msg else none
  | none => none

/-- `encrypt_text(plain_text, secret_key)`: argument checks, then the
Fernet token (URL-safe base64 text) of the plaintext under the derived
key. `timestamp` and `nonce` are the clock reading and the random nonce
the Fernet layer consumes, passed in explicitly. -/
def encrypt_text (timestamp : Nat) (nonce : List Nat) (plain_text secret_key : String) :
    Except PyError String :=
  if plain_text = "" then .error (.valueError "Plain text must not be empty")
  else if secret_key = "" then .error (.valueError "Secret key must not be empty")
  else .ok (String.mk (b64encode
    (fernetEncryptRaw timestamp nonce (_derive_fernet_key secret_key)
      (bytesOfChars plain_text.data))))

/-- `decrypt_text(token, secret_key)`: argument checks, then Fernet
decryption under the derived key; structural or integrity failure raises
`InvalidToken`. -/
def decrypt_text (token secret_key : String) : Except PyError String :=
  if token = "" then .error (.valueError "Token must not be empty")
  else if secret_key = "" then .error (.valueError "Secret key must not be empty")
  else
    match b64decode token.data with
    | none => .error .invalidToken
    | some raw =>
      match fernetDecryptRaw (_derive_fernet_key secret_key) raw with
      | none => .error .invalidToken
      | some msgBytes =>
        match charsOfBytes msgBytes.length msgBytes with
        | some cs => .ok (String.mk cs)
        | none => .error (.valueError "utf-8 decode error")

theorem char_toNat_inj {c1 c2 : Char} (h : c1.toNat = c2.toNat) : c1 = c2 := by
  have h1 := Char.ofNat_toNat c1
  have h2 := Char.ofNat_toNat c2
  rw [← h1, ← h2, h]

theorem string_ext {s1 s2 : String} (h : s1.data = s2.data) : s1 = s2 :=
  congrArg String.mk h

theorem b64Char_props : ∀ i, i < 64 →
    b64Idx (b64Char i) = some i ∧ (b64Char i).toNat < 128 ∧
    b64Char i ≠ '=' ∧ b64Char i ≠ '$' := by decide

theorem b64Idx_eq_some {c : Char} {i : Nat} (h : b64Idx c = some i) :
    i < 64 ∧ b64Char i = c := by
  unfold b64Idx at h
  split_ifs at h with h1 h2 h3 h4 h5 <;> injection h with h'
  · refine ⟨by omega, ?_⟩
    subst h'
    simp only [b64Char]
    rw [if_pos (by omega)]
    have e : 65 + (c.toNat - 65) = c.toNat := by omega
    rw [e, Char.ofNat_toNat]
  · refine ⟨by omega, ?_⟩
    subst h'
    simp only [b64Char]
    rw [if_neg (by omega), if_pos (by omega)]
    have e : 97 + (26 + (c.toNat - 97) - 26) = c.toNat := by omega
    rw [e, Char.ofNat_toNat]
  · refine ⟨by omega, ?_⟩
    subst h'
    simp only [b64Char]
    rw [if_neg (by omega), if_neg (by omega), if_pos (by omega)]
    have e : 48 + (52 + (c.toNat - 48) - 52) = c.toNat := by omega
    rw [e, Char.ofNat_toNat]
  · refine ⟨by omega, ?_⟩
    subst h'
    have e : b64Char 62 = Char.ofNat 45 := by decide
    rw [e, ← h4, Char.ofNat_toNat]
  · refine ⟨by omega, ?_⟩
    subst h'
    have e : b64Char 63 = Char.ofNat 95 := by decide
    rw [e, ← h5, Char.ofNat_toNat]

theorem b64encode_ne_nil : ∀ {l : List Nat}, l ≠ [] → b64encode l ≠ [] := by
  intro l h
  match l with
  | [] => exact absurd rfl h
  | [b1] => simp [b64encode]
  | [b1, b2] => simp [b64encode]
  | b1 :: b2 :: b3 :: rest => simp [b64encode]


theorem b64decode_encode : ∀ l, validBytes l → b64decode (b64encode l) = some l := by
  intro l
  induction l using b64encode.induct with
  | case1 => intro _; rfl
  | case2 b1 =>
    intro hv
    have hb1 : b1 < 256 := hv b1 (by simp)
    have h1 := (b64Char_props (b1 / 4) (by omega)).1
    have h2 := (b64Char_props (b1 % 4 * 16) (by omega)).1
    simp only [b64encode, b64decode, List.isEmpty, decodeLast, h1, h2, if_true, true_and]
    rw [if_pos (show b1 % 4 * 16 % 16 = 0 by omega)]
    simp only [Option.some.injEq, List.cons.injEq, and_true]
    omega
  | case3 b1 b2 =>
    intro hv
    have hb1 : b1 < 256 := hv b1 (by simp)
    have hb2 : b2 < 256 := hv b2 (by simp)
    have h1 := (b64Char_props (b1 / 4) (by omega)).1
    have h2 := (b64Char_props (b1 % 4 * 16 + b2 / 16) (by omega)).1
    have h3 := (b64Char_props (b2 % 16 * 4) (by omega)).1
    have h3' := (b64Char_props (b2 % 16 * 4) (by omega)).2.2.1
    simp only [b64encode, b64decode, List.isEmpty, decodeLast, h1, h2, h3, if_true]
    rw [if_neg h3', if_pos (show b2 % 16 * 4 % 4 = 0 by omega)]
    simp only [Option.some.injEq, List.cons.injEq, and_true]
    omega
  | case4 b1 b2 b3 rest ih =>
    intro hv
    have hb1 : b1 < 256 := hv b1 (by simp)
    have hb2 : b2 < 256 := hv b2 (by simp)
    have hb3 : b3 < 256 := hv b3 (by simp)
    have hrest : validBytes rest := fun b hb => hv b (by simp [hb])
    have h1 := (b64Char_props (b1 / 4) (by omega)).1
    have h2 := (b64Char_props (b1 % 4 * 16 + b2 / 16) (by omega)).1
    have h3 := (b64Char_props (b2 % 16 * 4 + b3 / 64) (by omega)).1
    have h4 := (b64Char_props (b3 % 64) (by omega)).1
    have h3' := (b64Char_props (b2 % 16 * 4 + b3 / 64) (by omega)).2.2.1
    have h4' := (b64Char_props (b3 % 64) (by omega)).2.2.1
    rcases Decidable.em (rest = []) with hre | hre
    · subst hre
      simp only [b64encode, b64decode, List.isEmpty, decodeLast, h1, h2, h3, h4, if_true]
      rw [if_neg h3', if_neg h4']
      simp only [Option.some.injEq, List.cons.injEq, and_true]
      omega
    · have hne := b64encode_ne_nil hre
      simp only [b64encode, b64decode]
      rw [if_neg (by simpa [List.isEmpty_iff] using hne)]
      simp only [decodeFull, h1, h2, h3, h4, ih hrest]
      simp only [Option.some.injEq, List.cons_append, List.nil_append, List.cons.injEq, and_true,
        true_and, and_self]
      omega

theorem b64encode_decode : ∀ s x, b64decode s = some x → b64encode x = s ∧ validBytes x := by
  intro s
  induction s using b64decode.induct with
  | case1 =>
    intro x hx
    simp only [b64decode, Option.some.injEq] at hx
    subst hx
    exact ⟨rfl, by intro b hb; cases hb⟩
  | case2 c1 c2 c3 c4 rest h =>
    intro x hx
    have hre : rest = [] := by simpa [List.isEmpty_iff] using h
    subst hre
    simp only [b64decode, List.isEmpty, if_pos] at hx
    rcases hi1 : b64Idx c1 with _ | i1 <;> rcases hi2 : b64Idx c2 with _ | i2 <;>
      simp only [decodeLast, hi1, hi2] at hx <;> try exact Option.noConfusion hx
    obtain ⟨hlt1, hc1⟩ := b64Idx_eq_some hi1
    obtain ⟨hlt2, hc2⟩ := b64Idx_eq_some hi2
    by_cases h3 : c3 = '='
    · rw [if_pos h3] at hx
      split_ifs at hx with hcond
      obtain ⟨h4, hmod⟩ := hcond
      injection hx with hx
      subst hx
      subst h3
      subst h4
      constructor
      · simp only [b64encode]
        have e1 : (i1 * 4 + i2 / 16) / 4 = i1 := by omega
        have e2 : (i1 * 4 + i2 / 16) % 4 * 16 = i2 := by omega
        rw [e1, e2, hc1, hc2]
      · intro b hb
        simp only [List.mem_singleton] at hb
        omega
    · rw [if_neg h3] at hx
      rcases hi3 : b64Idx c3 with _ | i3 <;> simp only [hi3] at hx <;>
        try exact Option.noConfusion hx
      obtain ⟨hlt3, hc3⟩ := b64Idx_eq_some hi3
      by_cases h4 : c4 = '='
      · rw [if_pos h4] at hx
        split_ifs at hx with hmod
        injection hx with hx
        subst hx
        subst h4
        constructor
        · simp only [b64encode]
          have e1 : (i1 * 4 + i2 / 16) / 4 = i1 := by omega
          have e2 : (i1 * 4 + i2 / 16) % 4 * 16 + (i2 % 16 * 16 + i3 / 4) / 16 = i2 := by omega
          have e3 : (i2 % 16 * 16 + i3 / 4) % 16 * 4 = i3 := by omega
          rw [e1, e2, e3, hc1, hc2, hc3]
        · intro b hb
          simp only [List.mem_cons, List.mem_singleton, List.not_mem_nil, or_false] at hb
          rcases hb with hb | hb <;> omega
      · rw [if_neg h4] at hx
        rcases hi4 : b64Idx c4 with _ | i4 <;> simp only [hi4] at hx <;>
          try exact Option.noConfusion hx
        obtain ⟨hlt4, hc4⟩ := b64Idx_eq_some hi4
        injection hx with hx
        subst hx
        constructor
        · simp only [b64encode]
          have e1 : (i1 * 4 + i2 / 16) / 4 = i1 := by omega
          have e2 : (i1 * 4 + i2 / 16) % 4 * 16 + (i2 % 16 * 16 + i3 / 4) / 16 = i2 := by omega
          have e3 : (i2 % 16 * 16 + i3 / 4) % 16 * 4 + (i3 % 4 * 64 + i4) / 64 = i3 := by omega
          have e4 : (i3 % 4 * 64 + i4) % 64 = i4 := by omega
          rw [e1, e2, e3, e4, hc1, hc2, hc3, hc4]
        · intro b hb
          simp only [List.mem_cons, List.mem_singleton, List.not_mem_nil, or_false] at hb
          rcases hb with hb | hb | hb <;> omega
  | case3 c1 c2 c3 c4 rest h y t hbt hdf ih =>
    intro x hx
    simp only [b64decode, h, if_neg, Bool.not_eq_true, if_false] at hx
    rw [hdf, hbt] at hx
    injection hx with hx
    subst hx
    obtain ⟨henc, hval⟩ := ih t hbt
    rcases hy1 : b64Idx c1 with _ | i1 <;> rcases hy2 : b64Idx c2 with _ | i2 <;>
      rcases hy3 : b64Idx c3 with _ | i3 <;> rcases hy4 : b64Idx c4 with _ | i4 <;>
      simp only [decodeFull, hy1, hy2, hy3, hy4] at hdf <;> try exact Option.noConfusion hdf
    obtain ⟨hlt1, hc1⟩ := b64Idx_eq_some hy1
    obtain ⟨hlt2, hc2⟩ := b64Idx_eq_some hy2
    obtain ⟨hlt3, hc3⟩ := b64Idx_eq_some hy3
    obtain ⟨hlt4, hc4⟩ := b64Idx_eq_some hy4
    injection hdf with hdf
    subst hdf
    have happ : ([i1 * 4 + i2 / 16, i2 % 16 * 16 + i3 / 4, i3 % 4 * 64 + i4] : List Nat) ++ t
        = (i1 * 4 + i2 / 16) :: ((i2 % 16 * 16 + i3 / 4) :: ((i3 % 4 * 64 + i4) :: t)) := rfl
    rw [happ]
    constructor
    · simp only [b64encode]
      have e1 : (i1 * 4 + i2 / 16) / 4 = i1 := by omega
      have e2 : (i1 * 4 + i2 / 16) % 4 * 16 + (i2 % 16 * 16 + i3 / 4) / 16 = i2 := by omega
      have e3 : (i2 % 16 * 16 + i3 / 4) % 16 * 4 + (i3 % 4 * 64 + i4) / 64 = i3 := by omega
      have e4 : (i3 % 4 * 64 + i4) % 64 = i4 := by omega
      rw [e1, e2, e3, e4, hc1, hc2, hc3, hc4, henc]
    · intro b hb
      simp only [List.mem_cons] at hb
      rcases hb with hb | hb | hb | hb
      · omega
      · omega
      · omega
      · exact hval b hb
  | case4 c1 c2 c3 c4 rest h hnone ih =>
    intro x hx
    simp only [b64decode, h, if_neg, Bool.not_eq_true, if_false] at hx
    exact Option.noConfusion hx
  | case5 t h0 h4 =>
    intro x hx
    rcases t with _ | ⟨a, _ | ⟨b, _ | ⟨c, _ | ⟨d, r⟩⟩⟩⟩
    · exact (h0 rfl).elim
    · exact Option.noConfusion hx
    · exact Option.noConfusion hx
    · exact Option.noConfusion hx
    · exact (h4 a b c d r rfl).elim

theorem b64encode_inj {l1 l2 : List Nat} (h1 : validBytes l1) (h2 : validBytes l2)
    (h : b64encode l1 = b64encode l2) : l1 = l2 := by
  have e1 := b64decode_encode l1 h1
  have e2 := b64decode_encode l2 h2
  rw [h, e2] at e1
  exact ((Option.some.injEq _ _).mp e1).symm

theorem b64encode_ascii : ∀ l, validBytes l →
    ∀ c ∈ b64encode l, c.toNat < 128 ∧ c ≠ '$' := by
  intro l
  induction l using b64encode.induct with
  | case1 => intro _ c hc; cases hc
  | case2 b1 =>
    intro hv c hc
    have hb1 : b1 < 256 := hv b1 (by simp)
    have h1 := (b64Char_props (b1 / 4) (by omega)).2
    have h2 := (b64Char_props (b1 % 4 * 16) (by omega)).2
    simp only [b64encode, List.mem_cons, List.not_mem_nil, or_false] at hc
    rcases hc with rfl | rfl | rfl | rfl
    · exact ⟨h1.1, h1.2.2⟩
    · exact ⟨h2.1, h2.2.2⟩
    · exact ⟨by decide, by decide⟩
    · exact ⟨by decide, by decide⟩
  | case3 b1 b2 =>
    intro hv c hc
    have hb1 : b1 < 256 := hv b1 (by simp)
    have hb2 : b2 < 256 := hv b2 (by simp)
    have h1 := (b64Char_props (b1 / 4) (by omega)).2
    have h2 := (b64Char_props (b1 % 4 * 16 + b2 / 16) (by omega)).2
    have h3 := (b64Char_props (b2 % 16 * 4) (by omega)).2
    simp only [b64encode, List.mem_cons, List.not_mem_nil, or_false] at hc
    rcases hc with rfl | rfl | rfl | rfl
    · exact ⟨h1.1, h1.2.2⟩
    · exact ⟨h2.1, h2.2.2⟩
    · exact ⟨h3.1, h3.2.2⟩
    · exact ⟨by decide, by decide⟩
  | case4 b1 b2 b3 rest ih =>
    intro hv c hc
    have hb1 : b1 < 256 := hv b1 (by simp)
    have hb2 : b2 < 256 := hv b2 (by simp)
    have hb3 : b3 < 256 := hv b3 (by simp)
    have hrest : validBytes rest := fun b hb => hv b (by simp [hb])
    have h1 := (b64Char_props (b1 / 4) (by omega)).2
    have h2 := (b64Char_props (b1 % 4 * 16 + b2 / 16) (by omega)).2
    have h3 := (b64Char_props (b2 % 16 * 4 + b3 / 64) (by omega)).2
    have h4 := (b64Char_props (b3 % 64) (by omega)).2
    simp only [b64encode, List.mem_cons] at hc
    rcases hc with rfl | rfl | rfl | rfl | hc
    · exact ⟨h1.1, h1.2.2⟩
    · exact ⟨h2.1, h2.2.2⟩
    · exact ⟨h3.1, h3.2.2⟩
    · exact ⟨h4.1, h4.2.2⟩
    · exact ih hrest c hc

theorem char_toNat_ofNat {m : Nat} (h : m < 55296) : (Char.ofNat m).toNat = m := by
  have hv : Nat.isValidChar m := Or.inl h
  simp only [Char.ofNat, hv, dif_pos]
  simp [Char.ofNatAux, Char.toNat, UInt32.toNat, UInt32.ofNatCore, UInt32.ofNat]

theorem digitsRec_eq_digits {base : Nat} (hb : 2 ≤ base) :
    ∀ fuel n, n ≤ fuel → digitsRec base fuel n = Nat.digits base n := by
  intro fuel
  induction fuel with
  | zero =>
    intro n hn
    have : n = 0 := by omega
    subst this
    rw [Nat.digits_zero]
    simp [digitsRec]
  | succ f ih =>
    intro n hn
    cases n with
    | zero =>
      rw [Nat.digits_zero]
      simp [digitsRec]
    | succ m =>
      have hdiv : (m + 1) / base ≤ f := by
        have h1 : (m + 1) / base < m + 1 :=
          Nat.div_lt_self (by omega) (by omega)
        omega
      show (m + 1) % base :: digitsRec base f ((m + 1) / base) = Nat.digits base (m + 1)
      rw [ih _ hdiv, Nat.digits_def' (by omega : 1 < base) (Nat.succ_pos m)]

theorem natDigits_eq {base : Nat} (hb : 2 ≤ base) (n : Nat) :
    natDigits base n = Nat.digits base n :=
  digitsRec_eq_digits hb n n le_rfl

theorem natBytes_eq (n : Nat) : natBytes n = Nat.digits 255 n ++ [255] := by
  rw [natBytes, natDigits_eq (by norm_num)]

theorem digits255_lt {n d : Nat} (hd : d ∈ Nat.digits 255 n) : d < 255 :=
  Nat.digits_lt_base (by norm_num) hd

theorem takeWhile_term (xs : List Nat) (hx : ∀ x ∈ xs, x ≠ 255) (r : List Nat) :
    (xs ++ 255 :: r).takeWhile (fun b => b != 255) = xs ∧
    (xs ++ 255 :: r).dropWhile (fun b => b != 255) = 255 :: r := by
  induction xs with
  | nil => constructor <;> simp [List.takeWhile_cons, List.dropWhile_cons]
  | cons a t ih =>
    have ha : a ≠ 255 := hx a (by simp)
    have ha' : (a != 255) = true := by simpa using ha
    obtain ⟨ih1, ih2⟩ := ih fun x hxx => hx x (by simp [hxx])
    constructor
    · simp only [List.cons_append, List.takeWhile_cons, ha', if_true, ih1]
    · simp only [List.cons_append, List.dropWhile_cons, ha', if_true, ih2]

theorem readNat_natBytes (n : Nat) (r : List Nat) : readNat (natBytes n ++ r) = some (n, r) := by
  have hd : ∀ x ∈ Nat.digits 255 n, x ≠ 255 := fun x hx => Nat.ne_of_lt (digits255_lt hx)
  have hs : natBytes n ++ r = Nat.digits 255 n ++ 255 :: r := by
    simp [natBytes_eq, List.append_assoc]
  obtain ⟨h1, h2⟩ := takeWhile_term (Nat.digits 255 n) hd r
  rw [readNat, hs, h2, h1, Nat.ofDigits_digits]

theorem natBytes_append_inj {a b : Nat} {r1 r2 : List Nat}
    (h : natBytes a ++ r1 = natBytes b ++ r2) : a = b ∧ r1 = r2 := by
  have h1 := readNat_natBytes a r1
  rw [h, readNat_natBytes b r2] at h1
  injection h1 with h1
  exact ⟨(Prod.mk.injEq _ _ _ _).mp h1.symm |>.1, (Prod.mk.injEq _ _ _ _).mp h1.symm |>.2⟩

theorem lenEnc_append_inj {l1 l2 r1 r2 : List Nat}
    (h : lenEnc l1 ++ r1 = lenEnc l2 ++ r2) : l1 = l2 ∧ r1 = r2 := by
  rw [lenEnc, lenEnc, List.append_assoc, List.append_assoc] at h
  obtain ⟨hlen, hrest⟩ := natBytes_append_inj h
  exact List.append_inj hrest hlen

theorem validBytes_append {l1 l2 : List Nat} (h1 : validBytes l1) (h2 : validBytes l2) :
    validBytes (l1 ++ l2) := by
  intro b hb
  rcases List.mem_append.mp hb with h | h
  · exact h1 b h
  · exact h2 b h

theorem validBytes_natBytes (n : Nat) : validBytes (natBytes n) := by
  intro b hb
  rw [natBytes_eq] at hb
  rcases List.mem_append.mp hb with h | h
  · exact lt_trans (digits255_lt h) (by norm_num)
  · simp only [List.mem_singleton] at h
    omega

theorem validBytes_lenEnc {l : List Nat} (h : validBytes l) : validBytes (lenEnc l) :=
  validBytes_append (validBytes_natBytes _) h

theorem validBytes_bytesOfChars (cs : List Char) : validBytes (bytesOfChars cs) := by
  induction cs with
  | nil => intro b hb; cases hb
  | cons c t ih => exact validBytes_append (validBytes_natBytes _) ih

theorem bytesOfChars_inj : ∀ {cs1 cs2 : List Char},
    bytesOfChars cs1 = bytesOfChars cs2 → cs1 = cs2 := by
  intro cs1
  induction cs1 with
  | nil =>
    intro cs2 h
    cases cs2 with
    | nil => rfl
    | cons c t =>
      exfalso
      have hh : ([] : List Nat) = natBytes c.toNat ++ bytesOfChars t := h
      rcases hnb : natBytes c.toNat with _ | ⟨d, ds⟩
      · exact absurd hnb (by simp [natBytes])
      · rw [hnb] at hh
        exact List.noConfusion hh
  | cons c t ih =>
    intro cs2 h
    cases cs2 with
    | nil =>
      exfalso
      have : natBytes c.toNat ++ bytesOfChars t = ([] : List Nat) := h
      rcases hnb : natBytes c.toNat with _ | ⟨d, ds⟩
      · exact absurd hnb (by simp [natBytes])
      · rw [hnb] at this
        exact List.noConfusion this
    | cons c2 t2 =>
      obtain ⟨hc, ht⟩ := natBytes_append_inj (h : natBytes c.toNat ++ _ = natBytes c2.toNat ++ _)
      rw [char_toNat_inj hc, ih ht]

theorem natBytes_length_pos (n : Nat) : 1 ≤ (natBytes n).length := by
  simp [natBytes]

theorem bytesOfChars_length (cs : List Char) : cs.length ≤ (bytesOfChars cs).length := by
  induction cs with
  | nil => simp [bytesOfChars]
  | cons c t ih =>
    have := natBytes_length_pos c.toNat
    simp only [bytesOfChars, List.length_append, List.length_cons]
    omega

theorem char_valid_toNat (c : Char) : Nat.isValidChar c.toNat := c.valid

theorem charsOfBytes_bytesOfChars : ∀ (cs : List Char) (fuel : Nat), cs.length ≤ fuel →
    charsOfBytes fuel (bytesOfChars cs) = some cs := by
  intro cs
  induction cs with
  | nil => intro fuel _; cases fuel <;> rfl
  | cons c t ih =>
    intro fuel hfuel
    rcases fuel with _ | f
    · simp at hfuel
    rcases hnb : natBytes c.toNat with _ | ⟨d, ds⟩
    · exact absurd hnb (by simp [natBytes])
    have hshape : bytesOfChars (c :: t) = d :: (ds ++ bytesOfChars t) := by
      simp [bytesOfChars, hnb]
    have hread : readNat (d :: (ds ++ bytesOfChars t)) = some (c.toNat, bytesOfChars t) := by
      have := readNat_natBytes c.toNat (bytesOfChars t)
      rw [hnb] at this
      simpa using this
    rw [hshape]
    simp only [charsOfBytes, hread, char_valid_toNat, if_pos]
    rw [ih f (by simp at hfuel; omega)]
    simp [Char.ofNat_toNat]

theorem splitD_ne_nil : ∀ l : List Char, splitD l ≠ [] := by
  intro l
  cases l with
  | nil => simp [splitD]
  | cons c t =>
    by_cases hc : c = '$'
    · simp [splitD, hc]
    · simp only [splitD, if_neg hc]
      rcases h : splitD t with _ | ⟨hh, r⟩ <;> simp

theorem splitD_no_dollar : ∀ l : List Char, (∀ c ∈ l, c ≠ '$') → splitD l = [l] := by
  intro l
  induction l with
  | nil => intro _; rfl
  | cons c t ih =>
    intro h
    have hc : c ≠ '$' := h c (by simp)
    have ht := ih fun x hx => h x (by simp [hx])
    simp only [splitD, if_neg hc, ht]

theorem splitD_append : ∀ a : List Char, (∀ c ∈ a, c ≠ '$') → ∀ r,
    splitD (a ++ '$' :: r) = a :: splitD r := by
  intro a
  induction a with
  | nil => intro _ r; simp [splitD]
  | cons c t ih =>
    intro ha r
    have hc : c ≠ '$' := ha c (by simp)
    have ht := ih (fun x hx => ha x (by simp [hx])) r
    have ht' : splitD (t.append ('$' :: r)) = t :: splitD r := ht
    simp only [List.cons_append, splitD, if_neg hc, ht']

theorem splitD_length : ∀ l : List Char, (splitD l).length = l.count '$' + 1 := by
  intro l
  induction l with
  | nil => simp [splitD]
  | cons c t ih =>
    by_cases hc : c = '$'
    · subst hc
      simp [splitD, List.count_cons, ih]
    · simp only [splitD, if_neg hc]
      rcases h : splitD t with _ | ⟨hh, r⟩
      · exact absurd h (splitD_ne_nil t)
      · rw [h] at ih
        simp only [List.length_cons] at ih ⊢
        have hcount : (c :: t).count '$' = t.count '$' := by
          simp [List.count_cons, hc]
        omega

theorem string_eq_empty_iff {s : String} : s = "" ↔ s.data = [] :=
  ⟨fun h => by rw [h], fun h => string_ext h⟩

theorem digits10_lt {n d : Nat} (hd : d ∈ Nat.digits 10 n) : d < 10 :=
  Nat.digits_lt_base (by norm_num) hd

theorem natRepr_chars (n : Nat) : ∀ c ∈ (natRepr n).data, 48 ≤ c.toNat ∧ c.toNat ≤ 57 := by
  unfold natRepr
  split_ifs with h
  · intro c hc
    have : c = '0' := by simpa using hc
    subst this
    exact ⟨by decide, by decide⟩
  · intro c hc
    rw [natDigits_eq (by norm_num)] at hc
    obtain ⟨d, hd, hdc⟩ := List.mem_map.mp hc
    have hd10 : d < 10 := digits10_lt (List.mem_reverse.mp hd)
    have : c.toNat = 48 + d := by
      rw [← hdc]
      exact char_toNat_ofNat (by omega)
    omega

theorem intRepr_chars (i : Int) : ∀ c ∈ (intRepr i).data, c.toNat < 128 ∧ c ≠ '$' := by
  have hchar : ∀ n : Nat, ∀ c ∈ (natRepr n).data, c.toNat < 128 ∧ c ≠ '$' := by
    intro n c hc
    obtain ⟨hlo, hhi⟩ := natRepr_chars n c hc
    refine ⟨by omega, fun he => ?_⟩
    rw [he] at hlo
    revert hlo
    decide
  unfold intRepr
  split_ifs with h
  · intro c hc
    rw [String.data_append] at hc
    rcases List.mem_append.mp hc with hc | hc
    · have : c = '-' := by simpa using hc
      subst this
      exact ⟨by decide, by decide⟩
    · exact hchar _ c hc
  · exact hchar _

theorem record_data (sv it hs : String) :
    (sv ++ "$" ++ it ++ "$" ++ hs).data = sv.data ++ '$' :: (it.data ++ '$' :: hs.data) := by
  simp [String.data_append, List.append_assoc]

theorem splitD_record {sv it hs : List Char} (h1 : ∀ c ∈ sv, c ≠ '$')
    (h2 : ∀ c ∈ it, c ≠ '$') (h3 : ∀ c ∈ hs, c ≠ '$') :
    splitD (sv ++ '$' :: (it ++ '$' :: hs)) = [sv, it, hs] := by
  rw [splitD_append sv h1, splitD_append it h2, splitD_no_dollar hs h3]

theorem pbkdf2_ok {p s : List Nat} {i : Int} (hi : 1 ≤ i) :
    pbkdf2Hmac p s i = .ok (lenEnc p ++ lenEnc s ++ natBytes i.toNat) := by
  unfold pbkdf2Hmac
  rw [if_neg (by omega)]

theorem pbkdf2_error {p s : List Nat} {i : Int} (hi : i < 1) :
    pbkdf2Hmac p s i = .error (.valueError "iteration value must be greater than 0.") := by
  unfold pbkdf2Hmac
  rw [if_pos hi]

theorem validBytes_pbkdf2 (p s : List Nat) (m : Nat) (hp : validBytes p) (hs : validBytes s) :
    validBytes (lenEnc p ++ lenEnc s ++ natBytes m) :=
  validBytes_append (validBytes_append (validBytes_lenEnc hp) (validBytes_lenEnc hs))
    (validBytes_natBytes m)

theorem pbkdf2_out_inj {p1 p2 s : List Nat} {m : Nat}
    (h : lenEnc p1 ++ lenEnc s ++ natBytes m = lenEnc p2 ++ lenEnc s ++ natBytes m) :
    p1 = p2 := by
  rw [List.append_assoc, List.append_assoc] at h
  exact (lenEnc_append_inj h).1

theorem hash_text_eq (fs text : String) (salt : Option String) (i : Int)
    (htext : ¬ text = "") (hi : 1 ≤ i) :
    hash_text fs text salt i = .ok (resolveSalt fs salt ++ "$" ++ intRepr i ++ "$" ++
      String.mk (b64encode (lenEnc (bytesOfChars text.data) ++
        lenEnc (bytesOfChars (resolveSalt fs salt).data) ++ natBytes i.toNat))) := by
  cases salt with
  | none =>
    simp only [hash_text, if_neg htext, resolveSalt, pbkdf2_ok hi]
  | some s =>
    by_cases hs : s = ""
    · simp only [hash_text, if_neg htext, resolveSalt, hs, if_pos, pbkdf2_ok hi]
    · simp only [hash_text, if_neg htext, resolveSalt, if_neg hs, pbkdf2_ok hi]

theorem hash_text_empty (fs : String) (salt : Option String) (i : Int) :
    hash_text fs "" salt i = .error (.valueError "Text to hash must not be empty") := by
  simp [hash_text]

theorem hash_text_bad_iterations (fs text : String) (salt : Option String) (i : Int)
    (htext : ¬ text = "") (hi : i < 1) :
    hash_text fs text salt i =
      .error (.valueError "iteration value must be greater than 0.") := by
  cases salt with
  | none => simp only [hash_text, if_neg htext, pbkdf2_error hi]
  | some s =>
    by_cases hs : s = ""
    · simp only [hash_text, if_neg htext, hs, if_pos, pbkdf2_error hi]
    · simp only [hash_text, if_neg htext, if_neg hs, pbkdf2_error hi]

theorem verify_hash_eq (fs text stored : String) {sL iL hL : List Char} {n : Int}
    (hsplit : splitD stored.data = [sL, iL, hL])
    (hint : pyInt (String.mk iL) = some n) :
    verify_hash fs text stored =
      match hash_text fs text (some (String.mk sL)) n with
      | .ok calculated =>
          compare_digest calculated
            (String.mk sL ++ "$" ++ intRepr n ++ "$" ++ String.mk hL)
      | .error e => .error e := by
  simp only [verify_hash, hsplit, hint]

theorem compare_digest_ok {a b : String} (ha : asciiChars a.data) (hb : asciiChars b.data) :
    compare_digest a b = .ok (a == b) := by
  unfold compare_digest
  rw [if_pos ⟨ha, hb⟩]

theorem asciiChars_append {l1 l2 : List Char} (h1 : asciiChars l1) (h2 : asciiChars l2) :
    asciiChars (l1 ++ l2) := by
  intro c hc
  rcases List.mem_append.mp hc with h | h
  · exact h1 c h
  · exact h2 c h

theorem asciiChars_record {sv it hs : String} (h1 : asciiChars sv.data)
    (h2 : asciiChars it.data) (h3 : asciiChars hs.data) :
    asciiChars (sv ++ "$" ++ it ++ "$" ++ hs).data := by
  rw [record_data]
  intro c hc
  rcases List.mem_append.mp hc with h | h
  · exact h1 c h
  rcases List.mem_cons.mp h with rfl | h
  · decide
  rcases List.mem_append.mp h with hm | hm
  · exact h2 c hm
  rcases List.mem_cons.mp hm with rfl | hm
  · decide
  · exact h3 c hm

theorem asciiChars_b64encode {l : List Nat} (h : validBytes l) :
    asciiChars (b64encode l) :=
  fun c hc => (b64encode_ascii l h c hc).1

theorem b64encode_no_dollar {l : List Nat} (h : validBytes l) :
    ∀ c ∈ b64encode l, c ≠ '$' :=
  fun c hc => (b64encode_ascii l h c hc).2

theorem intRepr_ascii (i : Int) : asciiChars (intRepr i).data :=
  fun c hc => (intRepr_chars i c hc).1

theorem intRepr_no_dollar (i : Int) : ∀ c ∈ (intRepr i).data, c ≠ '$' :=
  fun c hc => (intRepr_chars i c hc).2

theorem map_toNat_inj {l1 l2 : List Char} (h : l1.map Char.toNat = l2.map Char.toNat) :
    l1 = l2 := by
  induction l1 generalizing l2 with
  | nil => cases l2 with
    | nil => rfl
    | cons c t => exact List.noConfusion h
  | cons c t ih =>
    cases l2 with
    | nil => exact List.noConfusion h
    | cons c2 t2 =>
      injection h with h1 h2
      rw [char_toNat_inj h1, ih h2]

theorem validBytes_map_toNat {cs : List Char} (h : asciiChars cs) :
    validBytes (cs.map Char.toNat) := by
  intro b hb
  obtain ⟨c, hc, rfl⟩ := List.mem_map.mp hb
  exact lt_trans (h c hc) (by norm_num)

theorem validBytes_derive_key (k : String) : validBytes (_derive_fernet_key k) :=
  validBytes_map_toNat (asciiChars_b64encode (validBytes_bytesOfChars _))

theorem derive_key_inj {k1 k2 : String} (h : _derive_fernet_key k1 = _derive_fernet_key k2) :
    k1 = k2 := by
  unfold _derive_fernet_key sha256Digest at h
  have henc := map_toNat_inj h
  have hs := b64encode_inj (validBytes_bytesOfChars _) (validBytes_bytesOfChars _) henc
  exact string_ext (bytesOfChars_inj hs)

theorem validBytes_payload (ts : Nat) {nonce msg : List Nat} (hn : validBytes nonce)
    (hm : validBytes msg) : validBytes (fernetPayload ts nonce msg) :=
  validBytes_append (validBytes_append (validBytes_natBytes ts) (validBytes_lenEnc hn))
    (validBytes_lenEnc hm)

theorem validBytes_encryptRaw (ts : Nat) {nonce key msg : List Nat} (hn : validBytes nonce)
    (hk : validBytes key) (hm : validBytes msg) :
    validBytes (fernetEncryptRaw ts nonce key msg) :=
  validBytes_append (validBytes_append (validBytes_append (validBytes_lenEnc hk)
    (validBytes_payload ts hn hm)) (validBytes_payload ts hn hm)) (validBytes_payload ts hn hm)

theorem payload_length_ge (ts : Nat) (nonce msg : List Nat) :
    3 ≤ (fernetPayload ts nonce msg).length := by
  have h1 := natBytes_length_pos ts
  have h2 := natBytes_length_pos nonce.length
  have h3 := natBytes_length_pos msg.length
  simp only [fernetPayload, lenEnc, List.length_append]
  omega

theorem encryptRaw_length (ts : Nat) (nonce key msg : List Nat) :
    (fernetEncryptRaw ts nonce key msg).length =
      (lenEnc key).length + 3 * (fernetPayload ts nonce msg).length := by
  simp only [fernetEncryptRaw, List.length_append]
  omega

theorem encryptRaw_ne_nil (ts : Nat) (nonce key msg : List Nat) :
    fernetEncryptRaw ts nonce key msg ≠ [] := by
  intro h
  have := congrArg List.length h
  rw [encryptRaw_length] at this
  have h1 := natBytes_length_pos key.length
  have h2 := payload_length_ge ts nonce msg
  simp only [lenEnc, List.length_append, List.length_nil] at this
  omega

theorem fernetParse_payload (ts : Nat) (nonce msg rest : List Nat) :
    fernetParse (fernetPayload ts nonce msg ++ rest) = some (ts, nonce, msg) := by
  have hshape : fernetPayload ts nonce msg ++ rest =
      natBytes ts ++ (natBytes nonce.length ++ (nonce ++ (natBytes msg.length ++ (msg ++ rest)))) := by
    simp [fernetPayload, lenEnc, List.append_assoc]
  rw [fernetParse, hshape]
  simp only [readNat_natBytes, List.take_left, List.drop_left]

theorem fernetDecryptRaw_encrypt (ts : Nat) (nonce key msg : List Nat) :
    fernetDecryptRaw key (fernetEncryptRaw ts nonce key msg) = some msg := by
  have hdrop : (fernetEncryptRaw ts nonce key msg).drop (lenEnc key).length =
      fernetPayload ts nonce msg ++ (fernetPayload ts nonce msg ++ fernetPayload ts nonce msg) := by
    have hshape : fernetEncryptRaw ts nonce key msg = lenEnc key ++
        (fernetPayload ts nonce msg ++ (fernetPayload ts nonce msg ++ fernetPayload ts nonce msg)) := by
      simp [fernetEncryptRaw, List.append_assoc]
    rw [hshape, List.drop_left]
  rw [fernetDecryptRaw, hdrop, fernetParse_payload]
  show (if fernetEncryptRaw ts nonce key msg = fernetEncryptRaw ts nonce key msg
    then some msg else none) = some msg
  rw [if_pos rfl]

theorem fernetDecryptRaw_some {key raw msg : List Nat} (h : fernetDecryptRaw key raw = some msg) :
    ∃ ts nonce, raw = fernetEncryptRaw ts nonce key msg := by
  rw [fernetDecryptRaw] at h
  rcases hp : fernetParse (raw.drop (lenEnc key).length) with _ | ⟨ts, nonce, m⟩
  · rw [hp] at h
    exact Option.noConfusion h
  · rw [hp] at h
    have h' : (if raw = fernetEncryptRaw ts nonce key m then some m else none) = some msg := h
    split_ifs at h' with hc
    injection h' with h'
    subst h'
    exact ⟨ts, nonce, hc⟩

set_option maxRecDepth 10000

theorem hash_text_ok_inv {fs text : String} {salt : Option String} {i : Int} {c : String}
    (h : hash_text fs text salt i = .ok c) :
    ¬ text = "" ∧ 1 ≤ i ∧ c = resolveSalt fs salt ++ "$" ++ intRepr i ++ "$" ++
      String.mk (b64encode (lenEnc (bytesOfChars text.data) ++
        lenEnc (bytesOfChars (resolveSalt fs salt).data) ++ natBytes i.toNat)) := by
  by_cases htext : text = ""
  · rw [htext, hash_text_empty] at h
    exact absurd h (by simp)
  by_cases hi : 1 ≤ i
  · rw [hash_text_eq fs text salt i htext hi] at h
    injection h with h
    exact ⟨htext, hi, h.symm⟩
  · rw [hash_text_bad_iterations fs text salt i htext (by omega)] at h
    exact absurd h (by simp)

theorem hash_text_error_inv {fs text : String} {salt : Option String} {i : Int} {e : PyError}
    (h : hash_text fs text salt i = .error e) :
    e = .valueError "Text to hash must not be empty" ∨
    e = .valueError "iteration value must be greater than 0." := by
  by_cases htext : text = ""
  · rw [htext, hash_text_empty] at h
    injection h with h
    exact Or.inl h.symm
  by_cases hi : 1 ≤ i
  · rw [hash_text_eq fs text salt i htext hi] at h
    exact absurd h (by simp)
  · rw [hash_text_bad_iterations fs text salt i htext (by omega)] at h
    injection h with h
    exact Or.inr h.symm

/-- Claim C6: for every positive integer `n`, `generate_salt(n)` returns
URL-safe base64 text that decodes back to exactly the `n` raw bytes read
from the entropy source, and for `n ≤ 0` it raises the invalid-argument
`ValueError`. -/
theorem C6_generate_salt (n : Int) (randomBytes : List Nat) :
    (0 < n → randomBytes.length = n.toNat → validBytes randomBytes →
      generate_salt randomBytes n = .ok (String.mk (b64encode randomBytes)) ∧
      b64decode (String.mk (b64encode randomBytes)).data = some randomBytes ∧
      randomBytes.length = n.toNat) ∧
    (n ≤ 0 → generate_salt randomBytes n = .error (.valueError "Salt length must be positive")) := by
  constructor
  · intro hn hlen hv
    refine ⟨?_, ?_, hlen⟩
    · rw [generate_salt, if_neg (by omega)]
    · exact b64decode_encode randomBytes hv
  · intro hn
    rw [generate_salt, if_pos hn]

theorem C6_generate_salt_witness :
    generate_salt [5, 200] 2 = .ok (String.mk (b64encode [5, 200])) ∧
    b64decode (String.mk (b64encode [5, 200])).data = some [5, 200] ∧
    generate_salt [5, 200] 0 = .error (.valueError "Salt length must be positive") := by
  obtain ⟨h1, h2, _⟩ := (C6_generate_salt 2 [5, 200]).1 (by decide) (by decide) (by decide)
  exact ⟨h1, h2, (C6_generate_salt 0 [5, 200]).2 (by decide)⟩

/-- Claim C5 counterexample: the claim quantifies over every iteration
count, but `hash_text` with iteration count `0` raises the `ValueError`
of `hashlib.pbkdf2_hmac` instead of returning an encoded record. -/
theorem C5_counterexample :
    hash_text "X" "a" (some "s") 0 =
      .error (.valueError "iteration value must be greater than 0.") := by decide

/-- Claim C5 (amended): for every non-empty `text`, optional `salt` and
positive iteration count, `hash_text` returns exactly
`<salt>$<iterations>$<urlsafe-base64(PBKDF2-HMAC-SHA256(...))>`, where the
salt defaults to the freshly generated salt when omitted (or empty); and
the result is deterministic — independent of the fresh salt whenever a
non-empty salt is supplied. -/
theorem C5_hash_format (fs text : String) (salt : Option String) (i : Int)
    (htext : text ≠ "") (hi : 1 ≤ i) :
    (∃ dk, pbkdf2Hmac (bytesOfChars text.data) (bytesOfChars (resolveSalt fs salt).data) i =
        .ok dk ∧
      hash_text fs text salt i =
        .ok (resolveSalt fs salt ++ "$" ++ intRepr i ++ "$" ++ String.mk (b64encode dk))) ∧
    (∀ fs2 s, salt = some s → s ≠ "" → hash_text fs2 text salt i = hash_text fs text salt i) := by
  constructor
  · exact ⟨_, pbkdf2_ok hi, hash_text_eq fs text salt i htext hi⟩
  · intro fs2 s hsalt hs
    subst hsalt
    have h1 : resolveSalt fs2 (some s) = s := by simp [resolveSalt, hs]
    have h2 : resolveSalt fs (some s) = s := by simp [resolveSalt, hs]
    rw [hash_text_eq fs2 text _ i htext hi, hash_text_eq fs text _ i htext hi, h1, h2]

theorem C5_hash_format_witness :
    ∃ dk, pbkdf2Hmac (bytesOfChars "a".data) (bytesOfChars (resolveSalt "F" (some "s")).data) 1 =
        .ok dk ∧
      hash_text "F" "a" (some "s") 1 =
        .ok (resolveSalt "F" (some "s") ++ "$" ++ intRepr 1 ++ "$" ++ String.mk (b64encode dk)) :=
  (C5_hash_format "F" "a" (some "s") 1 (by decide) (by decide)).1

/-- Claim C8: each operation rejects an empty required string argument with
the corresponding invalid-argument `ValueError`, regardless of every other
argument (in particular regardless of the entropy, timestamp and nonce
inputs -- no cryptographic computation affects the outcome). -/
theorem C8_empty_argument_errors :
    (∀ fs salt i, hash_text fs "" salt i =
      .error (.valueError "Text to hash must not be empty")) ∧
    (∀ k alg, generate_hmac "" k alg = .error (.valueError "Message must not be empty")) ∧
    (∀ m alg, m ≠ "" → generate_hmac m "" alg =
      .error (.valueError "Secret key must not be empty")) ∧
    (∀ ts nonce k, encrypt_text ts nonce "" k =
      .error (.valueError "Plain text must not be empty")) ∧
    (∀ ts nonce p, p ≠ "" → encrypt_text ts nonce p "" =
      .error (.valueError "Secret key must not be empty")) ∧
    (∀ k, decrypt_text "" k = .error (.valueError "Token must not be empty")) ∧
    (∀ t, t ≠ "" → decrypt_text t "" = .error (.valueError "Secret key must not be empty")) := by
  refine ⟨fun fs salt i => hash_text_empty fs salt i, fun k alg => rfl, ?_,
    fun ts nonce k => rfl, ?_, fun k => rfl, ?_⟩
  · intro m alg hm
    rw [generate_hmac, if_neg hm, if_pos rfl]
  · intro ts nonce p hp
    rw [encrypt_text, if_neg hp, if_pos rfl]
  · intro t ht
    rw [decrypt_text, if_neg ht, if_pos rfl]

theorem C8_empty_argument_errors_witness :
    generate_hmac "m" "" "sha256" = .error (.valueError "Secret key must not be empty") ∧
    encrypt_text 0 [] "p" "" = .error (.valueError "Secret key must not be empty") ∧
    decrypt_text "t" "" = .error (.valueError "Secret key must not be empty") := by
  obtain ⟨h1, h2, h3, h4, h5, h6, h7⟩ := C8_empty_argument_errors
  exact ⟨h3 "m" "sha256" (by decide), h5 0 [] "p" (by decide), h7 "t" (by decide)⟩

theorem b64encode_cons_head (b1 : Nat) (l : List Nat) :
    ∃ t, b64encode (b1 :: l) = b64Char (b1 / 4) :: t := by
  rcases l with _ | ⟨b2, l2⟩
  · exact ⟨_, rfl⟩
  rcases l2 with _ | ⟨b3, l3⟩
  · exact ⟨_, rfl⟩
  · exact ⟨_, rfl⟩

/-- Claim C9 (implicit): an explicitly supplied empty-string salt behaves
exactly like an omitted salt — the Python expression `salt or
generate_salt()` replaces it with the freshly generated salt — so the
record returned for a generated fresh salt never begins with the `$`
delimiter. -/
theorem C9_empty_salt_fresh (randomBytes : List Nat) (hlen : randomBytes.length = 16)
    (hv : validBytes randomBytes) (text : String) (htext : text ≠ "") :
    hash_text (String.mk (b64encode randomBytes)) text (some "") 100000 =
      hash_text (String.mk (b64encode randomBytes)) text none 100000 ∧
    ∀ rec, hash_text (String.mk (b64encode randomBytes)) text (some "") 100000 = .ok rec →
      rec.data.head? ≠ some '$' := by
  have hnum : (1 : Int) ≤ 100000 := by norm_num
  constructor
  · rw [hash_text_eq _ text (some "") 100000 htext hnum,
      hash_text_eq _ text none 100000 htext hnum]
    rfl
  · intro rec hrec
    rw [hash_text_eq _ text (some "") 100000 htext hnum] at hrec
    injection hrec with hrec
    rw [← hrec, record_data]
    rcases randomBytes with _ | ⟨b1, rb⟩
    · simp at hlen
    obtain ⟨t, ht⟩ := b64encode_cons_head b1 rb
    have hb1 : b1 < 256 := hv b1 (by simp)
    have hsv : (resolveSalt (String.mk (b64encode (b1 :: rb))) (some "")).data =
        b64Char (b1 / 4) :: t := by
      show (String.mk (b64encode (b1 :: rb))).data = _
      rw [show (String.mk (b64encode (b1 :: rb))).data = b64encode (b1 :: rb) from rfl, ht]
    rw [hsv]
    simp only [List.cons_append, List.head?_cons]
    intro h
    injection h with h
    exact absurd h ((b64Char_props (b1 / 4) (by omega)).2.2.2)

theorem C9_empty_salt_fresh_witness :
    hash_text (String.mk (b64encode [1, 2, 3, 4, 5, 6, 7, 8, 9, 10, 11, 12, 13, 14, 15, 16]))
        "a" (some "") 100000 =
      hash_text (String.mk (b64encode [1, 2, 3, 4, 5, 6, 7, 8, 9, 10, 11, 12, 13, 14, 15, 16]))
        "a" none 100000 :=
  (C9_empty_salt_fresh [1, 2, 3, 4, 5, 6, 7, 8, 9, 10, 11, 12, 13, 14, 15, 16]
    (by decide) (by decide) "a" (by decide)).1

theorem verify_hash_bad_split (fs2 text2 rec : String)
    (h : 3 < (splitD rec.data).length) :
    verify_hash fs2 text2 rec = .error (.valueError formatErrMsg) := by
  rw [verify_hash]
  rcases hsp : splitD rec.data with _ | ⟨a, _ | ⟨b, _ | ⟨c, _ | ⟨d, tl⟩⟩⟩⟩
  all_goals try (rw [hsp] at h; simp at h)
  all_goals rfl

/-- Claim C10 (implicit): for every non-empty text and caller-supplied salt
containing the `$` character, `hash_text` succeeds and returns a record
with more than three `$`-separated fields, and `verify_hash` on that
record always raises the format error, whatever the candidate text. -/
theorem C10_dollar_salt (fs text salt : String) (htext : text ≠ "") (hd : '$' ∈ salt.data) :
    ∃ rec, hash_text fs text (some salt) 100000 = .ok rec ∧
      3 < (splitD rec.data).length ∧
      ∀ fs2 text2, verify_hash fs2 text2 rec = .error (.valueError formatErrMsg) := by
  have hnum : (1 : Int) ≤ 100000 := by norm_num
  have hsne : salt ≠ "" := fun h => by
    rw [string_eq_empty_iff] at h
    rw [h] at hd
    cases hd
  have hrs : resolveSalt fs (some salt) = salt := by simp [resolveSalt, hsne]
  have hrec := hash_text_eq fs text (some salt) 100000 htext hnum
  rw [hrs] at hrec
  have hlen4 : 3 < (splitD (salt ++ "$" ++ intRepr 100000 ++ "$" ++
      String.mk (b64encode (lenEnc (bytesOfChars text.data) ++
        lenEnc (bytesOfChars salt.data) ++ natBytes (100000 : Int).toNat))).data).length := by
    rw [record_data, splitD_length]
    have h1 : salt.data.count '$' ≠ 0 := fun h0 => absurd hd (List.count_eq_zero.mp h0)
    simp only [List.count_append, List.count_cons_self]
    omega
  exact ⟨_, hrec, hlen4, fun fs2 text2 => verify_hash_bad_split fs2 text2 _ hlen4⟩

theorem C10_dollar_salt_witness :
    ∃ rec, hash_text "F" "a" (some "x$y") 100000 = .ok rec ∧
      3 < (splitD rec.data).length ∧
      verify_hash "G" "zzz" rec = .error (.valueError formatErrMsg) := by
  obtain ⟨rec, h1, h2, h3⟩ := C10_dollar_salt "F" "a" "x$y" (by decide) (by decide)
  exact ⟨rec, h1, h2, h3 "G" "zzz"⟩

/-- Claim C2 counterexample: the claim promises `verify_hash(text2,
hash_text(text))` is false for every `text2` different from `text`, but for
the empty `text2` the inner `hash_text` call raises the invalid-argument
`ValueError` instead of returning false. -/
theorem C2_counterexample :
    verify_hash "Q" ""
      ((hash_text (String.mk (b64encode [1, 2, 3, 4, 5, 6, 7, 8, 9, 10, 11, 12, 13, 14, 15, 16]))
        "a" none 100000).toOption.getD "") =
      .error (.valueError "Text to hash must not be empty") := by decide

/-- Claim C2 (amended): for every non-empty `text` and every salt the
implementation may generate (URL-safe base64 of 16 random bytes),
`verify_hash(text, hash_text(text))` is true, and for every non-empty
`text2` different from `text` it is false (an empty `text2` raises the
invalid-argument error instead). -/
theorem C2_verify_roundtrip (randomBytes : List Nat) (hlen : randomBytes.length = 16)
    (hv : validBytes randomBytes) (text : String) (htext : text ≠ "") (rec : String)
    (hrec : hash_text (String.mk (b64encode randomBytes)) text none 100000 = .ok rec) :
    (∀ fs2, verify_hash fs2 text rec = .ok true) ∧
    (∀ fs2 text2, text2 ≠ "" → text2 ≠ text → verify_hash fs2 text2 rec = .ok false) := by
  have hnum : (1 : Int) ≤ 100000 := by norm_num
  have hrbne : randomBytes ≠ [] := by
    intro h
    rw [h] at hlen
    simp at hlen
  have hfsne : String.mk (b64encode randomBytes) ≠ "" := fun h =>
    b64encode_ne_nil hrbne (string_eq_empty_iff.mp h)
  obtain ⟨_, _, hrecform⟩ := hash_text_ok_inv hrec
  have hrs : resolveSalt (String.mk (b64encode randomBytes)) none =
      String.mk (b64encode randomBytes) := rfl
  rw [hrs] at hrecform
  subst hrecform
  have hdk_valid : validBytes (lenEnc (bytesOfChars text.data) ++
      lenEnc (bytesOfChars (String.mk (b64encode randomBytes)).data) ++
      natBytes (100000 : Int).toNat) :=
    validBytes_pbkdf2 _ _ _ (validBytes_bytesOfChars _) (validBytes_bytesOfChars _)
  have hsplit : splitD ((String.mk (b64encode randomBytes)) ++ "$" ++ intRepr 100000 ++ "$" ++
      String.mk (b64encode (lenEnc (bytesOfChars text.data) ++
        lenEnc (bytesOfChars (String.mk (b64encode randomBytes)).data) ++
        natBytes (100000 : Int).toNat))).data =
      [b64encode randomBytes, (intRepr (100000 : Int)).data,
        b64encode (lenEnc (bytesOfChars text.data) ++
          lenEnc (bytesOfChars (String.mk (b64encode randomBytes)).data) ++
          natBytes (100000 : Int).toNat)] := by
    rw [record_data]
    exact splitD_record (b64encode_no_dollar hv) (intRepr_no_dollar 100000)
      (b64encode_no_dollar hdk_valid)
  have hint : pyInt (String.mk (intRepr (100000 : Int)).data) = some (100000 : Int) := by decide
  have hres2 : ∀ fs2 : String, resolveSalt fs2 (some (String.mk (b64encode randomBytes))) =
      String.mk (b64encode randomBytes) := fun fs2 => by
    simp [resolveSalt, hfsne]
  constructor
  · intro fs2
    rw [verify_hash_eq fs2 text _ hsplit hint,
      hash_text_eq fs2 text (some (String.mk (b64encode randomBytes))) 100000 htext hnum,
      hres2 fs2]
    refine (compare_digest_ok ?_ ?_).trans (congrArg Except.ok (beq_self_eq_true _))
    · exact asciiChars_record (asciiChars_b64encode hv) (intRepr_ascii _)
        (asciiChars_b64encode hdk_valid)
    · exact asciiChars_record (asciiChars_b64encode hv) (intRepr_ascii _)
        (asciiChars_b64encode hdk_valid)
  · intro fs2 text2 h2ne h2eq
    rw [verify_hash_eq fs2 text2 _ hsplit hint,
      hash_text_eq fs2 text2 (some (String.mk (b64encode randomBytes))) 100000 h2ne hnum,
      hres2 fs2]
    have hdk2_valid : validBytes (lenEnc (bytesOfChars text2.data) ++
        lenEnc (bytesOfChars (String.mk (b64encode randomBytes)).data) ++
        natBytes (100000 : Int).toNat) :=
      validBytes_pbkdf2 _ _ _ (validBytes_bytesOfChars _) (validBytes_bytesOfChars _)
    refine (compare_digest_ok ?_ ?_).trans (congrArg Except.ok (beq_eq_false_iff_ne.mpr ?_))
    · exact asciiChars_record (asciiChars_b64encode hv) (intRepr_ascii _)
        (asciiChars_b64encode hdk2_valid)
    · exact asciiChars_record (asciiChars_b64encode hv) (intRepr_ascii _)
        (asciiChars_b64encode hdk_valid)
    · intro heq
      have hd := congrArg String.data heq
      rw [record_data, record_data] at hd
      have hd1 := List.append_cancel_left hd
      injection hd1 with _ hd2
      have hd3 := List.append_cancel_left hd2
      injection hd3 with _ hd4
      have hdk := b64encode_inj hdk2_valid hdk_valid hd4
      have htexts := bytesOfChars_inj (pbkdf2_out_inj hdk)
      exact h2eq (string_ext htexts)

theorem C2_verify_roundtrip_witness :
    verify_hash "G" "a"
      ((hash_text (String.mk (b64encode [1, 2, 3, 4, 5, 6, 7, 8, 9, 10, 11, 12, 13, 14, 15, 16]))
        "a" none 100000).toOption.getD "") = .ok true ∧
    verify_hash "G" "b"
      ((hash_text (String.mk (b64encode [1, 2, 3, 4, 5, 6, 7, 8, 9, 10, 11, 12, 13, 14, 15, 16]))
        "a" none 100000).toOption.getD "") = .ok false := by
  obtain ⟨h1, h2⟩ := C2_verify_roundtrip [1, 2, 3, 4, 5, 6, 7, 8, 9, 10, 11, 12, 13, 14, 15, 16]
    (by decide) (by decide) "a" (by decide)
    ((hash_text (String.mk (b64encode [1, 2, 3, 4, 5, 6, 7, 8, 9, 10, 11, 12, 13, 14, 15, 16]))
      "a" none 100000).toOption.getD "") (by decide)
  exact ⟨h1 "G", h2 "G" "b" (by decide) (by decide)⟩

/-- Claim C3 counterexample: for the stored hash `s$010$<correct digest for
10 iterations>`, `verify_hash` returns true even though
`hash_text(text, salt, iterations)` is `s$10$<digest>`, which is not
byte-identical to the stored hash — the comparison is against the record
rebuilt from the parsed fields, not against `stored_hash` itself. -/
theorem C3_counterexample :
    verify_hash "X" "a"
        ("s$010$" ++ ((hash_text "X" "a" (some "s") 10).toOption.getD "").drop 5) = .ok true ∧
      hash_text "X" "a" (some "s") 10 ≠
        .ok ("s$010$" ++ ((hash_text "X" "a" (some "s") 10).toOption.getD "").drop 5) := by
  constructor
  · decide
  · decide

/-- Claim C3 (amended): for every text and stored hash that splits on `$`
into exactly three ASCII parts with an integer middle part, `verify_hash`
returns true if and only if `hash_text(text, salt=<parsed salt>,
iterations=<parsed iterations>)` succeeds and is byte-identical to the
record rebuilt from the parsed fields, `f"{salt}${iterations}${hash}"`
(which coincides with `stored_hash` exactly when the iterations field is
written canonically). -/
theorem C3_verify_reconstruction (fs text stored : String) (sL iL hL : List Char) (n : Int)
    (hsplit : splitD stored.data = [sL, iL, hL]) (hint : pyInt (String.mk iL) = some n)
    (hsa : asciiChars sL) (hha : asciiChars hL) (hfa : asciiChars fs.data) :
    verify_hash fs text stored = .ok true ↔
      hash_text fs text (some (String.mk sL)) n =
        .ok (String.mk sL ++ "$" ++ intRepr n ++ "$" ++ String.mk hL) := by
  rw [verify_hash_eq fs text stored hsplit hint]
  rcases hht : hash_text fs text (some (String.mk sL)) n with e | calculated
  · constructor
    · intro h
      have h' : (Except.error e : Except PyError Bool) = .ok true := h
      exact absurd h' (by simp)
    · intro h
      exact absurd h (by simp)
  · obtain ⟨htext, hn, hcalc⟩ := hash_text_ok_inv hht
    have hsv_ascii : asciiChars (resolveSalt fs (some (String.mk sL))).data := by
      by_cases h0 : String.mk sL = ""
      · rw [show resolveSalt fs (some (String.mk sL)) = fs from by simp [resolveSalt, h0]]
        exact hfa
      · rw [show resolveSalt fs (some (String.mk sL)) = String.mk sL from by
          simp [resolveSalt, h0]]
        exact hsa
    have hcomp : compare_digest calculated
        (String.mk sL ++ "$" ++ intRepr n ++ "$" ++ String.mk hL) =
        .ok (calculated == (String.mk sL ++ "$" ++ intRepr n ++ "$" ++ String.mk hL)) := by
      apply compare_digest_ok
      · rw [hcalc]
        exact asciiChars_record hsv_ascii (intRepr_ascii n)
          (asciiChars_b64encode (validBytes_pbkdf2 _ _ _
            (validBytes_bytesOfChars _) (validBytes_bytesOfChars _)))
      · exact asciiChars_record hsa (intRepr_ascii n) hha
    constructor
    · intro h
      have h' : compare_digest calculated
          (String.mk sL ++ "$" ++ intRepr n ++ "$" ++ String.mk hL) = .ok true := h
      rw [hcomp] at h'
      injection h' with h'
      rw [eq_of_beq h']
    · intro h
      injection h with h
      show compare_digest calculated
        (String.mk sL ++ "$" ++ intRepr n ++ "$" ++ String.mk hL) = .ok true
      rw [hcomp, h]
      simp

theorem C3_verify_reconstruction_witness :
    verify_hash "X" "a" "s$1$h" = .ok true ↔
      hash_text "X" "a" (some (String.mk ['s'])) 1 =
        .ok (String.mk ['s'] ++ "$" ++ intRepr 1 ++ "$" ++ String.mk ['h']) :=
  C3_verify_reconstruction "X" "a" "s$1$h" ['s'] ['1'] ['h'] 1
    (by decide) (by decide) (by decide) (by decide) (by decide)

/-- Claim C4 counterexample: the stored hash `s$0$h` splits into exactly
three parts with an integer middle part, and the candidate text `a` is
merely wrong, yet `verify_hash` raises (the `ValueError` of
`hashlib.pbkdf2_hmac` on the non-positive iteration count) instead of
returning false. -/
theorem C4_counterexample :
    verify_hash "X" "a" "s$0$h" =
      .error (.valueError "iteration value must be greater than 0.") := by decide

/-- Claim C4 (amended): `verify_hash` raises the format error exactly when
`stored_hash` does not split on `$` into three parts with an integer
middle part; and for a well-formed `stored_hash` whose parsed iteration
count is positive and whose salt and hash fields are ASCII, `verify_hash`
never raises on a non-empty candidate text — it returns a boolean
(non-positive iteration counts and empty candidate texts raise other,
non-format errors). -/
theorem C4_format_error_iff :
    (∀ fs text stored : String,
      verify_hash fs text stored = .error (.valueError formatErrMsg) ↔
        ¬ ∃ (sL iL hL : List Char) (n : Int),
          splitD stored.data = [sL, iL, hL] ∧ pyInt (String.mk iL) = some n) ∧
    (∀ (fs text stored : String) (sL iL hL : List Char) (n : Int),
      splitD stored.data = [sL, iL, hL] → pyInt (String.mk iL) = some n →
      1 ≤ n → text ≠ "" → asciiChars sL → asciiChars hL → asciiChars fs.data →
      ∃ b, verify_hash fs text stored = .ok b) := by
  constructor
  · intro fs text stored
    constructor
    · intro h hwf
      obtain ⟨sL, iL, hL, n, hsp, hpi⟩ := hwf
      rw [verify_hash_eq fs text stored hsp hpi] at h
      rcases hht : hash_text fs text (some (String.mk sL)) n with e | calculated
      · rw [hht] at h
        have h' : (Except.error e : Except PyError Bool) =
            .error (.valueError formatErrMsg) := h
        injection h' with h'
        rcases hash_text_error_inv hht with he | he <;> rw [he] at h' <;>
          injection h' with h'' <;> exact absurd h'' (by decide)
      · rw [hht] at h
        have h' : compare_digest calculated
            (String.mk sL ++ "$" ++ intRepr n ++ "$" ++ String.mk hL) =
            .error (.valueError formatErrMsg) := h
        rw [compare_digest] at h'
        split_ifs at h' with hcc
        exact absurd h' (by simp)
    · intro hnwf
      rw [verify_hash]
      rcases hsp : splitD stored.data with _ | ⟨a, _ | ⟨b, _ | ⟨c, _ | ⟨d, tl⟩⟩⟩⟩
      · rfl
      · rfl
      · rfl
      · rcases hpi : pyInt (String.mk b) with _ | n
        · simp only [hpi]
        · exact absurd ⟨a, b, c, n, hsp, hpi⟩ hnwf
      · rfl
  · intro fs text stored sL iL hL n hsp hpi hn htext hsa hha hfa
    have hsv_ascii : asciiChars (resolveSalt fs (some (String.mk sL))).data := by
      by_cases h0 : String.mk sL = ""
      · rw [show resolveSalt fs (some (String.mk sL)) = fs from by simp [resolveSalt, h0]]
        exact hfa
      · rw [show resolveSalt fs (some (String.mk sL)) = String.mk sL from by
          simp [resolveSalt, h0]]
        exact hsa
    rw [verify_hash_eq fs text stored hsp hpi,
      hash_text_eq fs text (some (String.mk sL)) n htext hn]
    refine ⟨_, compare_digest_ok ?_ ?_⟩
    · exact asciiChars_record hsv_ascii (intRepr_ascii n)
        (asciiChars_b64encode (validBytes_pbkdf2 _ _ _
          (validBytes_bytesOfChars _) (validBytes_bytesOfChars _)))
    · exact asciiChars_record hsa (intRepr_ascii n) hha

theorem C4_format_error_iff_witness :
    (¬ ∃ (sL iL hL : List Char) (n : Int),
      splitD ("nodollar" : String).data = [sL, iL, hL] ∧ pyInt (String.mk iL) = some n) ∧
    ∃ b, verify_hash "X" "a" "s$1$h" = .ok b := by
  obtain ⟨hiff, hok⟩ := C4_format_error_iff
  exact ⟨(hiff "X" "a" "nodollar").mp (by decide),
    hok "X" "a" "s$1$h" ['s'] ['1'] ['h'] 1 (by decide) (by decide) (by decide) (by decide)
      (by decide) (by decide) (by decide)⟩

/-- Claim C1: for every non-empty plaintext and secret key (and any
timestamp and nonce the Fernet layer consumes),
`decrypt_text(encrypt_text(plain_text, secret_key), secret_key)` returns
exactly `plain_text`. -/
theorem C1_encrypt_decrypt_roundtrip (ts : Nat) (nonce : List Nat) (hn : validBytes nonce)
    (p k : String) (hp : p ≠ "") (hk : k ≠ "") (tok : String)
    (henc : encrypt_text ts nonce p k = .ok tok) :
    decrypt_text tok k = .ok p := by
  rw [encrypt_text, if_neg hp, if_neg hk] at henc
  injection henc with henc
  subst henc
  have hkey_valid := validBytes_derive_key k
  have hmsg_valid := validBytes_bytesOfChars p.data
  have hraw_valid : validBytes (fernetEncryptRaw ts nonce (_derive_fernet_key k)
      (bytesOfChars p.data)) :=
    validBytes_encryptRaw ts hn hkey_valid hmsg_valid
  have htokne : String.mk (b64encode (fernetEncryptRaw ts nonce (_derive_fernet_key k)
      (bytesOfChars p.data))) ≠ "" := fun h =>
    b64encode_ne_nil (encryptRaw_ne_nil ts nonce _ _) (string_eq_empty_iff.mp h)
  rw [decrypt_text, if_neg htokne, if_neg hk]
  rw [show (String.mk (b64encode (fernetEncryptRaw ts nonce (_derive_fernet_key k)
      (bytesOfChars p.data)))).data =
    b64encode (fernetEncryptRaw ts nonce (_derive_fernet_key k) (bytesOfChars p.data)) from rfl]
  rw [b64decode_encode _ hraw_valid]
  simp only [fernetDecryptRaw_encrypt,
    charsOfBytes_bytesOfChars p.data (bytesOfChars p.data).length (bytesOfChars_length p.data)]

theorem C1_encrypt_decrypt_roundtrip_witness :
    decrypt_text ((encrypt_text 0 [] "a" "b").toOption.getD "") "b" = .ok "a" :=
  C1_encrypt_decrypt_roundtrip 0 [] (by decide) "a" "b" (by decide) (by decide)
    ((encrypt_text 0 [] "a" "b").toOption.getD "") (by decide)


theorem decodeFull_length {a b c d : Char} {y : List Nat} (h : decodeFull a b c d = some y) :
    y.length = 3 := by
  rcases h1 : b64Idx a with _ | i1 <;> rcases h2 : b64Idx b with _ | i2 <;>
    rcases h3 : b64Idx c with _ | i3 <;> rcases h4 : b64Idx d with _ | i4 <;>
    simp only [decodeFull, h1, h2, h3, h4] at h <;> try exact Option.noConfusion h
  injection h with h
  rw [← h]
  rfl

theorem decodeLast_length {a b c d : Char} {y : List Nat} (h : decodeLast a b c d = some y) :
    1 ≤ y.length ∧ y.length ≤ 3 := by
  rcases h1 : b64Idx a with _ | i1 <;> rcases h2 : b64Idx b with _ | i2 <;>
    simp only [decodeLast, h1, h2] at h <;> try exact Option.noConfusion h
  by_cases h3 : c = '='
  · rw [if_pos h3] at h
    split_ifs at h
    injection h with h
    rw [← h]
    exact ⟨by simp, by simp⟩
  · rw [if_neg h3] at h
    rcases hc : b64Idx c with _ | i3 <;> simp only [hc] at h <;> try exact Option.noConfusion h
    by_cases h4 : d = '='
    · rw [if_pos h4] at h
      split_ifs at h
      injection h with h
      rw [← h]
      exact ⟨by simp, by simp⟩
    · rw [if_neg h4] at h
      rcases hd : b64Idx d with _ | i4 <;> simp only [hd] at h <;> try exact Option.noConfusion h
      injection h with h
      rw [← h]
      exact ⟨by simp, by simp⟩

theorem b64decode_cons_ne {e1 e2 e3 e4 : Char} {t : List Char} (ht : t ≠ [])
    {x : List Nat} (h : b64decode (e1 :: e2 :: e3 :: e4 :: t) = some x) :
    ∃ y t0, decodeFull e1 e2 e3 e4 = some y ∧ b64decode t = some t0 ∧ x = y ++ t0 := by
  have hie : ¬ t.isEmpty = true := by simpa [List.isEmpty_iff] using ht
  simp only [b64decode, hie, if_neg, Bool.not_eq_true, if_false] at h
  rcases hdf : decodeFull e1 e2 e3 e4 with _ | y <;>
    rcases hbt : b64decode t with _ | t0 <;>
    simp only [hdf, hbt, Option.some.injEq] at h <;>
    try exact Option.noConfusion h
  exact ⟨y, t0, rfl, rfl, h.symm⟩

theorem b64decode_last_case {e1 e2 e3 e4 : Char} {x : List Nat}
    (h : b64decode [e1, e2, e3, e4] = some x) : decodeLast e1 e2 e3 e4 = some x := by
  simpa only [b64decode, List.isEmpty_nil, if_true] using h

theorem b64decode_oneflip : ∀ (u : List Char) (c1 c2 : Char) (v : List Char) (x1 x2 : List Nat),
    b64decode (u ++ c1 :: v) = some x1 → b64decode (u ++ c2 :: v) = some x2 →
    ∃ pre y1 y2 z, x1 = pre ++ (y1 ++ z) ∧ x2 = pre ++ (y2 ++ z) ∧
      1 ≤ y1.length ∧ y1.length ≤ 3 ∧ 1 ≤ y2.length ∧ y2.length ≤ 3 ∧
      (z = [] ∨ (y1.length = 3 ∧ y2.length = 3)) := by
  have base : ∀ (e1 f1 : Char) (e2 f2 : Char) (e3 f3 : Char) (e4 f4 : Char) (t : List Char)
      (x1 x2 : List Nat),
      b64decode (e1 :: e2 :: e3 :: e4 :: t) = some x1 →
      b64decode (f1 :: f2 :: f3 :: f4 :: t) = some x2 →
      ∃ pre y1 y2 z, x1 = pre ++ (y1 ++ z) ∧ x2 = pre ++ (y2 ++ z) ∧
        1 ≤ y1.length ∧ y1.length ≤ 3 ∧ 1 ≤ y2.length ∧ y2.length ≤ 3 ∧
        (z = [] ∨ (y1.length = 3 ∧ y2.length = 3)) := by
    intro e1 f1 e2 f2 e3 f3 e4 f4 t x1 x2 h1 h2
    rcases Decidable.em (t = []) with ht | ht
    · subst ht
      have hl1 := decodeLast_length (b64decode_last_case h1)
      have hl2 := decodeLast_length (b64decode_last_case h2)
      exact ⟨[], x1, x2, [], by simp, by simp, hl1.1, hl1.2, hl2.1, hl2.2, Or.inl rfl⟩
    · obtain ⟨y1, t1, hdf1, hbt1, hx1⟩ := b64decode_cons_ne ht h1
      obtain ⟨y2, t2, hdf2, hbt2, hx2⟩ := b64decode_cons_ne ht h2
      have ht12 : t1 = t2 := by
        rw [hbt1] at hbt2
        exact ((Option.some.injEq _ _).mp hbt2)
      subst ht12
      exact ⟨[], y1, y2, t1, by simpa using hx1, by simpa using hx2,
        by simp [decodeFull_length hdf1], by simp [decodeFull_length hdf1],
        by simp [decodeFull_length hdf2], by simp [decodeFull_length hdf2],
        Or.inr ⟨decodeFull_length hdf1, decodeFull_length hdf2⟩⟩
  have main : ∀ (N : Nat) (u : List Char), u.length ≤ N →
      ∀ (c1 c2 : Char) (v : List Char) (x1 x2 : List Nat),
      b64decode (u ++ c1 :: v) = some x1 → b64decode (u ++ c2 :: v) = some x2 →
      ∃ pre y1 y2 z, x1 = pre ++ (y1 ++ z) ∧ x2 = pre ++ (y2 ++ z) ∧
        1 ≤ y1.length ∧ y1.length ≤ 3 ∧ 1 ≤ y2.length ∧ y2.length ≤ 3 ∧
        (z = [] ∨ (y1.length = 3 ∧ y2.length = 3)) := by
    intro N
    induction N with
    | zero =>
      intro u hu c1 c2 v x1 x2 h1 h2
      have hue : u = [] := List.eq_nil_of_length_eq_zero (by omega)
      subst hue
      rcases v with _ | ⟨v1, _ | ⟨v2, _ | ⟨v3, vt⟩⟩⟩
      · exact Option.noConfusion h1
      · exact Option.noConfusion h1
      · exact Option.noConfusion h1
      · exact base c1 c2 v1 v1 v2 v2 v3 v3 vt x1 x2 h1 h2
    | succ N ih =>
      intro u hu c1 c2 v x1 x2 h1 h2
      rcases u with _ | ⟨a, _ | ⟨b, _ | ⟨c, _ | ⟨d, u2⟩⟩⟩⟩
      · rcases v with _ | ⟨v1, _ | ⟨v2, _ | ⟨v3, vt⟩⟩⟩
        · exact Option.noConfusion h1
        · exact Option.noConfusion h1
        · exact Option.noConfusion h1
        · exact base c1 c2 v1 v1 v2 v2 v3 v3 vt x1 x2 h1 h2
      · rcases v with _ | ⟨v1, _ | ⟨v2, vt⟩⟩
        · exact Option.noConfusion h1
        · exact Option.noConfusion h1
        · exact base a a c1 c2 v1 v1 v2 v2 vt x1 x2 h1 h2
      · rcases v with _ | ⟨v1, vt⟩
        · exact Option.noConfusion h1
        · exact base a a b b c1 c2 v1 v1 vt x1 x2 h1 h2
      · exact base a a b b c c c1 c2 v x1 x2 h1 h2
      · rw [show (a :: b :: c :: d :: u2) ++ c1 :: v =
            a :: b :: c :: d :: (u2 ++ c1 :: v) from by simp] at h1
        rw [show (a :: b :: c :: d :: u2) ++ c2 :: v =
            a :: b :: c :: d :: (u2 ++ c2 :: v) from by simp] at h2
        have htne1 : u2 ++ c1 :: v ≠ [] := by simp
        have htne2 : u2 ++ c2 :: v ≠ [] := by simp
        obtain ⟨y1, t1, hdf1, hbt1, hx1⟩ := b64decode_cons_ne htne1 h1
        obtain ⟨y2, t2, hdf2, hbt2, hx2⟩ := b64decode_cons_ne htne2 h2
        have hyy : y1 = y2 := by
          rw [hdf1] at hdf2
          exact (Option.some.injEq _ _).mp hdf2
        subst hyy
        have hlen : u2.length ≤ N := by
          simp only [List.length_cons] at hu
          omega
        obtain ⟨pre, w1, w2, z, hp1, hp2, hb1, hb2, hb3, hb4, hz⟩ :=
          ih u2 hlen c1 c2 v t1 t2 hbt1 hbt2
        refine ⟨y1 ++ pre, w1, w2, z, ?_, ?_, hb1, hb2, hb3, hb4, hz⟩
        · rw [hx1, hp1, List.append_assoc]
        · rw [hx2, hp2, List.append_assoc]
  intro u c1 c2 v x1 x2 h1 h2
  exact main u.length u le_rfl c1 c2 v x1 x2 h1 h2


theorem list_ne_exists_get {l1 l2 : List Nat} (hne : l1 ≠ l2) (hlen : l1.length = l2.length) :
    ∃ j, ∃ (h1 : j < l1.length) (h2 : j < l2.length), l1.get ⟨j, h1⟩ ≠ l2.get ⟨j, h2⟩ := by
  by_contra h
  push_neg at h
  exact hne (List.ext_get hlen fun n h1 h2 => h n h1 h2)

theorem diff_window {pre y1 y2 z x1 x2 : List Nat}
    (hx1 : x1 = pre ++ (y1 ++ z)) (hx2 : x2 = pre ++ (y2 ++ z)) (hy : y1.length = y2.length)
    {idx : Nat} (h1 : idx < x1.length) (h2 : idx < x2.length)
    (hne : x1.get ⟨idx, h1⟩ ≠ x2.get ⟨idx, h2⟩) :
    pre.length ≤ idx ∧ idx < pre.length + y1.length := by
  subst hx1
  subst hx2
  constructor
  · by_contra hlt
    push_neg at hlt
    apply hne
    rw [List.get_eq_getElem, List.get_eq_getElem,
      List.getElem_append_left hlt, List.getElem_append_left hlt]
  · by_contra hge
    push_neg at hge
    apply hne
    rw [List.get_eq_getElem, List.get_eq_getElem,
      List.getElem_append_right (by omega : pre.length ≤ idx),
      List.getElem_append_right (by omega : pre.length ≤ idx),
      List.getElem_append_right (by omega : y1.length ≤ idx - pre.length),
      List.getElem_append_right (by omega : y2.length ≤ idx - pre.length)]
    congr 1
    omega

theorem get_copies (K P : List Nat) (j L : Nat) (hj : j < P.length) (hL : L = P.length) :
    ∃ (h1 : K.length + j < (K ++ (P ++ (P ++ P))).length)
      (h2 : K.length + L + j < (K ++ (P ++ (P ++ P))).length),
      (K ++ (P ++ (P ++ P))).get ⟨K.length + j, h1⟩ = P.get ⟨j, hj⟩ ∧
      (K ++ (P ++ (P ++ P))).get ⟨K.length + L + j, h2⟩ = P.get ⟨j, hj⟩ := by
  subst hL
  have hl : (K ++ (P ++ (P ++ P))).length = K.length + 3 * P.length := by
    simp only [List.length_append]
    omega
  refine ⟨by omega, by omega, ?_, ?_⟩
  · rw [List.get_eq_getElem, List.get_eq_getElem,
      List.getElem_append_right (by omega : K.length ≤ K.length + j)]
    simp only [Nat.add_sub_cancel_left]
    rw [List.getElem_append_left hj]
  · rw [List.get_eq_getElem, List.get_eq_getElem,
      List.getElem_append_right (by omega : K.length ≤ K.length + P.length + j)]
    have he : K.length + P.length + j - K.length = P.length + j := by omega
    simp only [he]
    rw [List.getElem_append_right (by omega : P.length ≤ P.length + j)]
    simp only [Nat.add_sub_cancel_left]
    rw [List.getElem_append_left hj]

theorem set_get_eq {l : List Char} {i : Nat} {c : Char} (h : l.set i c = l) (hi : i < l.length) :
    l.get ⟨i, hi⟩ = c := by
  have hl : i < (l.set i c).length := by
    rw [List.length_set]
    exact hi
  have h1 : (l.set i c).get ⟨i, hl⟩ = c := by
    rw [List.get_eq_getElem]
    exact List.getElem_set_self hl
  rw [← h1]
  exact List.get_of_eq h.symm ⟨i, hi⟩

/-- Claim C7 counterexample: the claim asserts that decrypting a valid
token under any secret key different from the one used to encrypt raises
an integrity/authentication error, but decrypting under the empty secret
key raises the invalid-argument `ValueError` for the empty key (the guard
at the top of `decrypt_text`), not the integrity error `InvalidToken`. -/
theorem C7_counterexample :
    decrypt_text ((encrypt_text 0 [] "a" "b").toOption.getD "") "" =
      .error (.valueError "Secret key must not be empty") := by decide

/-- Claim C7 (amended): for every token produced by `encrypt_text` from a
non-empty plaintext under a non-empty secret key, `decrypt_text` returns
the integrity error `InvalidToken` (and never a plaintext) both when any
single character of the token is replaced by a different character and
when the token is decrypted under any *non-empty* secret key different
from the one used to encrypt. -/
theorem C7_tamper_detection (ts : Nat) (nonce : List Nat) (hn : validBytes nonce)
    (p k : String) (hp : p ≠ "") (hk : k ≠ "") (tok : String)
    (henc : encrypt_text ts nonce p k = .ok tok) :
    (∀ (i : Nat) (hi : i < tok.data.length) (c2 : Char), c2 ≠ tok.data.get ⟨i, hi⟩ →
      decrypt_text (String.mk (tok.data.set i c2)) k = .error .invalidToken) ∧
    (∀ k2, k2 ≠ "" → k2 ≠ k → decrypt_text tok k2 = .error .invalidToken) := by
  rw [encrypt_text, if_neg hp, if_neg hk] at henc
  injection henc with henc
  subst henc
  set KEY := _derive_fernet_key k with hKEY
  set MSG := bytesOfChars p.data with hMSG
  set R := fernetEncryptRaw ts nonce KEY MSG with hR
  have hkv : validBytes KEY := validBytes_derive_key k
  have hmv : validBytes MSG := validBytes_bytesOfChars p.data
  have hraw_valid : validBytes R := validBytes_encryptRaw ts hn hkv hmv
  have hdec1 : b64decode (b64encode R) = some R := b64decode_encode R hraw_valid
  have hrawne : R ≠ [] := encryptRaw_ne_nil ts nonce KEY MSG
  constructor
  · intro i hi c2 hc2
    have hi' : i < (b64encode R).length := hi
    have hsetne : String.mk ((b64encode R).set i c2) ≠ "" := by
      intro h
      have h2 := string_eq_empty_iff.mp h
      have h3 := congrArg List.length h2
      rw [List.length_set] at h3
      exact b64encode_ne_nil hrawne (List.eq_nil_of_length_eq_zero h3)
    rw [decrypt_text, if_neg hsetne, if_neg hk]
    rcases hdec2 : b64decode ((b64encode R).set i c2) with _ | x2
    · simp only [hdec2]
    · have hdrnone : fernetDecryptRaw KEY x2 = none := by
        rcases hdr : fernetDecryptRaw KEY x2 with _ | m2
        · rfl
        exfalso
        obtain ⟨ts2, n2, hx2form⟩ := fernetDecryptRaw_some hdr
        have hset : (b64encode R).set i c2 =
            (b64encode R).take i ++ c2 :: (b64encode R).drop (i + 1) := by
          rw [List.set_eq_take_append_cons_drop, if_pos hi']
        have horig : b64encode R =
            (b64encode R).take i ++ (b64encode R).get ⟨i, hi'⟩ ::
              (b64encode R).drop (i + 1) := by
          conv_lhs => rw [← List.take_append_drop i (b64encode R)]
          rw [List.drop_eq_getElem_cons hi', List.get_eq_getElem]
        obtain ⟨pre, y1, y2, z, hx1e, hx2e, hb11, hb12, hb21, hb22, hz⟩ :=
          b64decode_oneflip ((b64encode R).take i) ((b64encode R).get ⟨i, hi'⟩) c2
            ((b64encode R).drop (i + 1)) R x2
            (by rw [← horig]; exact hdec1) (by rw [← hset]; exact hdec2)
        have hl1 : R.length = (lenEnc KEY).length +
            3 * (fernetPayload ts nonce MSG).length := encryptRaw_length ts nonce KEY MSG
        have hl2 : x2.length = (lenEnc KEY).length +
            3 * (fernetPayload ts2 n2 m2).length := by
          rw [hx2form]
          exact encryptRaw_length ts2 n2 KEY m2
        have hx1len : R.length = pre.length + (y1.length + z.length) := by
          rw [hx1e]
          simp [List.length_append]
        have hx2len : x2.length = pre.length + (y2.length + z.length) := by
          rw [hx2e]
          simp [List.length_append]
        have hlens : y1.length = y2.length ∧ (fernetPayload ts nonce MSG).length =
            (fernetPayload ts2 n2 m2).length := by
          rcases hz with hz | ⟨h3a, h3b⟩
          · subst hz
            simp only [List.length_nil] at hx1len hx2len
            constructor <;> omega
          · constructor <;> omega
        by_cases hPP : fernetPayload ts nonce MSG = fernetPayload ts2 n2 m2
        · have hraweq : R = x2 := by
            rw [hx2form, hR, fernetEncryptRaw, fernetEncryptRaw, hPP]
          have hencx2 := (b64encode_decode _ x2 hdec2).1
          rw [← hraweq] at hencx2
          exact hc2 (set_get_eq hencx2.symm hi').symm
        · obtain ⟨j, hj1, hj2, hjne⟩ := list_ne_exists_get hPP hlens.2
          have hshape1 : R = lenEnc KEY ++ (fernetPayload ts nonce MSG ++
              (fernetPayload ts nonce MSG ++ fernetPayload ts nonce MSG)) := by
            rw [hR]
            simp [fernetEncryptRaw, List.append_assoc]
          have hshape2 : x2 = lenEnc KEY ++ (fernetPayload ts2 n2 m2 ++
              (fernetPayload ts2 n2 m2 ++ fernetPayload ts2 n2 m2)) := by
            rw [hx2form]
            simp [fernetEncryptRaw, List.append_assoc]
          obtain ⟨hq11, hq12, hg11, hg12⟩ := get_copies (lenEnc KEY)
            (fernetPayload ts nonce MSG) j (fernetPayload ts nonce MSG).length hj1 rfl
          obtain ⟨hq21, hq22, hg21, hg22⟩ := get_copies (lenEnc KEY)
            (fernetPayload ts2 n2 m2) j (fernetPayload ts nonce MSG).length hj2 hlens.2
          rw [hshape1] at hx1e
          rw [hshape2] at hx2e
          have hd1 := diff_window hx1e hx2e hlens.1 hq11 hq21 (by rw [hg11, hg21]; exact hjne)
          have hd2 := diff_window hx1e hx2e hlens.1 hq12 hq22 (by rw [hg12, hg22]; exact hjne)
          have hP3 := payload_length_ge ts nonce MSG
          omega
      simp only [hdec2, hdrnone]
  · intro k2 hk2ne hk2k
    have htokne : String.mk (b64encode R) ≠ "" := fun h =>
      b64encode_ne_nil hrawne (string_eq_empty_iff.mp h)
    rw [decrypt_text, if_neg htokne, if_neg hk2ne]
    have hdrnone : fernetDecryptRaw (_derive_fernet_key k2) R = none := by
      rcases hdr : fernetDecryptRaw (_derive_fernet_key k2) R with _ | m2
      · rfl
      exfalso
      obtain ⟨ts2, n2, hform⟩ := fernetDecryptRaw_some hdr
      have hsk : lenEnc KEY ++ (fernetPayload ts nonce MSG ++
          (fernetPayload ts nonce MSG ++ fernetPayload ts nonce MSG)) =
          lenEnc (_derive_fernet_key k2) ++ (fernetPayload ts2 n2 m2 ++
            (fernetPayload ts2 n2 m2 ++ fernetPayload ts2 n2 m2)) := by
        have h1 : R = lenEnc KEY ++ (fernetPayload ts nonce MSG ++
            (fernetPayload ts nonce MSG ++ fernetPayload ts nonce MSG)) := by
          rw [hR]
          simp [fernetEncryptRaw, List.append_assoc]
        have h2 : R = lenEnc (_derive_fernet_key k2) ++ (fernetPayload ts2 n2 m2 ++
            (fernetPayload ts2 n2 m2 ++ fernetPayload ts2 n2 m2)) := by
          rw [hform]
          simp [fernetEncryptRaw, List.append_assoc]
        rw [← h1, ← h2]
      have hkeq := (lenEnc_append_inj hsk).1
      exact hk2k (derive_key_inj hkeq.symm)
    simp only [hdec1, hdrnone]

theorem C7_tamper_detection_witness :
    decrypt_text (String.mk ((((encrypt_text 0 [] "a" "b").toOption.getD "").data).set 0 '!')) "b" =
      .error .invalidToken ∧
    decrypt_text ((encrypt_text 0 [] "a" "b").toOption.getD "") "c" = .error .invalidToken :=
  ⟨(C7_tamper_detection 0 [] (by decide) "a" "b" (by decide) (by decide)
      ((encrypt_text 0 [] "a" "b").toOption.getD "") (by decide)).1 0 (by decide) '!' (by decide),
   (C7_tamper_detection 0 [] (by decide) "a" "b" (by decide) (by decide)
      ((encrypt_text 0 [] "a" "b").toOption.getD "") (by decide)).2 "c" (by decide) (by decide)⟩
